import Mathlib

set_option allowUnsafeReducibility true
attribute [local semireducible] Rat.mul Rat.add Rat.sub Rat.inv Rat.ofScientific

/-
Verification of the box-drawing rasterizer (kitty/fonts/box_drawing.py).

The rasterizer is embedded shallowly:
* a pixel buffer is a flat map from integer offsets to byte intensities
  (`Buf := ℤ → ℕ`), written row-major exactly as the source indexes it
  (`buf[y*width + x]`);
* the process-wide scale table and DPI are threaded explicitly through a
  `Ctx` value (the source reads globals `scale` and `_dpi`);
* Python loops `for k in range(a, b)` become `List.foldl` over `intRange a b`;
* Python `//` on ints is `Int.fdiv` (floor division) and `int()` applied to a
  float is truncation toward zero (`qtrunc` on ℚ);
* real arithmetic of the source is carried out in ℚ.
-/

namespace BoxDrawing

abbrev Buf := ℤ → ℕ

/-- Single assignment `buf[j] = v`. -/
def wr (b : Buf) (j : ℤ) (v : ℕ) : Buf := fun i => if i = j then v else b i

/-- Auxiliary for `intRange`: the `n` consecutive integers starting at `lo`. -/
def intRangeAux (lo : ℤ) : ℕ → List ℤ
  | 0 => []
  | n + 1 => lo :: intRangeAux (lo + 1) n

/-- Python `range(lo, hi)` as a list of integers. -/
def intRange (lo hi : ℤ) : List ℤ := intRangeAux lo (hi - lo).toNat

/-- A freshly allocated zero buffer (`bytearray(n)`). -/
def zeroBuf : Buf := fun _ => 0

/-- Python `int(q)` for a rational: truncation toward zero. -/
def qtrunc (q : ℚ) : ℤ := Int.tdiv q.num q.den

/-- Python `math.ceil(q)` for a rational, written with floor division so that
it evaluates by kernel reduction; proved equal to `Int.ceil` below. -/
def qceil (q : ℚ) : ℤ := Int.fdiv (q.num + q.den - 1) q.den

/-- The process-wide state read by the drawing routines: the four-entry
scale table (`scale`) and the active DPI (`_dpi`). -/
structure Ctx where
  scale : ℕ → ℚ
  dpi : ℚ

/-- Source line 18: `scale = (0.001, 1., 1.5, 2.)`. -/
def defaultScale : ℕ → ℚ := fun l =>
  if l = 0 then 1/1000 else if l = 1 then 1 else if l = 2 then 3/2 else if l = 3 then 2 else 0

/-- `thickness(level, horizontal)`: `int(math.ceil(pts * (_dpi / 72.0)))` where
`pts = scale[level]`.  The `horizontal` flag is accepted and ignored, as in the
source. -/
def thickness (c : Ctx) (level : ℕ) (horizontal : Bool) : ℤ :=
  qceil (c.scale level * (c.dpi / 72))

/-- `draw_hline(buf, width, x1, x2, y, level)`: rows `[y - sz//2, y - sz//2 + sz)`
across columns `[x1, x2)` are set to 255, `sz = thickness(level, horizontal=False)`. -/
def draw_hline (c : Ctx) (buf : Buf) (width x1 x2 y : ℤ) (level : ℕ) : Buf :=
  let sz := thickness c level false
  let start := y - Int.fdiv sz 2
  (intRange start (start + sz)).foldl
    (fun b yy => (intRange x1 x2).foldl (fun b2 x => wr b2 (yy * width + x) 255) b) buf

/-- `draw_vline(buf, width, y1, y2, x, level)`: columns `[x - sz//2, x - sz//2 + sz)`
across rows `[y1, y2)` are set to 255, `sz = thickness(level, horizontal=True)`. -/
def draw_vline (c : Ctx) (buf : Buf) (width y1 y2 x : ℤ) (level : ℕ) : Buf :=
  let sz := thickness c level true
  let start := x - Int.fdiv sz 2
  (intRange start (start + sz)).foldl
    (fun b xx => (intRange y1 y2).foldl (fun b2 y => wr b2 (xx + y * width) 255) b) buf

/-- `half_hline`: draws from an edge to the midpoint (optionally extended). -/
def half_hline (c : Ctx) (buf : Buf) (width height : ℤ) (level : ℕ)
    (which : String) (extend_by : ℤ) : Buf :=
  let xs : ℤ × ℤ :=
    if which = "left" then (0, extend_by + Int.fdiv width 2)
    else (Int.fdiv width 2 - extend_by, width)
  draw_hline c buf width xs.1 xs.2 (Int.fdiv height 2) level

/-- `half_vline`: draws from an edge to the midpoint (optionally extended). -/
def half_vline (c : Ctx) (buf : Buf) (width height : ℤ) (level : ℕ)
    (which : String) (extend_by : ℤ) : Buf :=
  let ys : ℤ × ℤ :=
    if which = "top" then (0, Int.fdiv height 2 + extend_by)
    else (Int.fdiv height 2 - extend_by, height)
  draw_vline c buf width ys.1 ys.2 (Int.fdiv width 2) level

/-- `hline`: both halves of a horizontal line. -/
def hline (c : Ctx) (buf : Buf) (width height : ℤ) (level : ℕ) : Buf :=
  half_hline c (half_hline c buf width height level "left" 0) width height level "right" 0

/-- `vline`: both halves of a vertical line. -/
def vline (c : Ctx) (buf : Buf) (width height : ℤ) (level : ℕ) : Buf :=
  half_vline c (half_vline c buf width height level "top" 0) width height level "bottom" 0

/-- `get_holes(sz, hole_sz, num)`: the 1–3 gap intervals, each the list of
columns `range(c - hole_sz//2, c - hole_sz//2 + hole_sz)` for the computed
centers `c`.  (The source has no branch for other values of `num`; they are
never used.) -/
def get_holes (sz hole_sz : ℤ) (num : ℕ) : List (List ℤ) :=
  let pts : List ℤ :=
    if num = 1 then [Int.fdiv sz 2]
    else if num = 2 then
      let ssz := Int.fdiv (sz - 2 * hole_sz) 3
      [ssz + Int.fdiv hole_sz 2, 2 * ssz + Int.fdiv hole_sz 2 + hole_sz]
    else if num = 3 then
      let ssz := Int.fdiv (sz - 3 * hole_sz) 4
      [ssz + Int.fdiv hole_sz 2, 2 * ssz + Int.fdiv hole_sz 2 + hole_sz,
        3 * ssz + 2 * hole_sz + Int.fdiv hole_sz 2]
    else []
  pts.map (fun ctr => intRange (ctr - Int.fdiv hole_sz 2) (ctr - Int.fdiv hole_sz 2 + hole_sz))

def hole_factor : ℤ := 8

/-- `add_hholes`: zero out a `thickness(level)`-tall band at each hole position. -/
def add_hholes (c : Ctx) (buf : Buf) (width height : ℤ) (level : ℕ) (num : ℕ) : Buf :=
  let line_sz := thickness c level true
  let hole_sz := Int.fdiv width hole_factor
  let start := Int.fdiv height 2 - Int.fdiv line_sz 2
  let holes := get_holes width hole_sz num
  (intRange start (start + line_sz)).foldl
    (fun b y => holes.foldl
      (fun b2 hole => hole.foldl (fun b3 x => wr b3 (y * width + x) 0) b2) b) buf

/-- `hholes`: draw a full horizontal line, then punch holes. -/
def hholes (c : Ctx) (buf : Buf) (width height : ℤ) (level : ℕ) (num : ℕ) : Buf :=
  add_hholes c (hline c buf width height level) width height level num

/-- `cross(buf, width, height, a, b, c, d)`: four half-lines with independent levels. -/
def cross (c : Ctx) (buf : Buf) (width height : ℤ) (a b cc d : ℕ) : Buf :=
  let b1 := half_hline c buf width height a "left" 0
  let b2 := half_hline c b1 width height b "right" 0
  let b3 := half_vline c b2 width height cc "top" 0
  half_vline c b3 width height d "bottom" 0

/-- `downsample(src, dest, dest_width, dest_height, factor)`: average each
`factor × factor` block of `src` into one destination pixel, adding (clamped
at 255) onto the existing destination value.  As in the source, the source
row stride is the literal `4 * dest_width`. -/
def downsample (src : Buf) (dest : Buf) (dest_width dest_height : ℤ) (factor : ℤ) : Buf :=
  let src_width := 4 * dest_width
  let average_intensity_in_src : ℤ → ℤ → ℕ := fun dest_x dest_y =>
    let src_y := dest_y * factor
    let src_x := dest_x * factor
    let total := ((intRange src_y (src_y + factor)).map (fun y =>
      ((intRange src_x (src_x + factor)).map (fun x => src (src_width * y + x))).sum)).sum
    total / (factor * factor).toNat
  (intRange 0 dest_height).foldl (fun b y =>
    (intRange 0 dest_width).foldl (fun b2 x =>
      wr b2 (dest_width * y + x)
        (min 255 (b2 (dest_width * y + x) + average_intensity_in_src x y))) b) dest

/-- The `supersampled()` decorator at its default factor 4: run `f` on a fresh
zero scratch buffer at 4× the dimensions, then `downsample` into `buf`. -/
def supersampled (f : Buf → ℤ → ℤ → Buf) (buf : Buf) (width height : ℤ) : Buf :=
  let w := 4 * width
  let h := 4 * height
  downsample (f zeroBuf w h) buf width height 4

/-- `fill_region(buf, width, height, xlimits)`: for each row `y` and each
`(upper, lower)` at column `x` of `xlimits`, write 255 when
`upper <= y <= lower` and 0 otherwise. -/
def fill_region (buf : Buf) (width height : ℤ) (xlimits : List (ℚ × ℚ)) : Buf :=
  (intRange 0 height).foldl (fun b y =>
    (xlimits.enum).foldl (fun b2 xp =>
      wr b2 ((xp.1 : ℤ) + y * width)
        (if xp.2.1 ≤ (y : ℚ) ∧ (y : ℚ) ≤ xp.2.2 then 255 else 0)) b) buf

/-- `line_equation(x1, y1, x2, y2)`: the affine function through the two
points.  (When `x1 = x2` the source raises ZeroDivisionError before writing
anything; here rational division by zero yields 0.) -/
def line_equation (x1 y1 x2 y2 : ℚ) : ℚ → ℚ := fun x =>
  let m := (y2 - y1) / (x2 - x1)
  let c := y1 - m * x1
  m * x + c

/-- `thick_line(buf, width, height, thickness_in_pixels, p1, p2)`: per column
between the endpoints, fill a vertical band of the given pixel thickness
centered on the line equation's y; every write is guarded by
`0 <= x < width` and `0 <= y < height`. -/
def thick_line (buf : Buf) (width height : ℤ) (thickness_in_pixels : ℤ)
    (p1 p2 : ℤ × ℤ) : Buf :=
  let pq : (ℤ × ℤ) × (ℤ × ℤ) := if p1.1 > p2.1 then (p2, p1) else (p1, p2)
  let a := pq.1
  let b := pq.2
  let leq := line_equation (a.1 : ℚ) (a.2 : ℚ) (b.1 : ℚ) (b.2 : ℚ)
  let delta := Int.fdiv thickness_in_pixels 2
  let extra := Int.fmod thickness_in_pixels 2
  (intRange a.1 (b.1 + 1)).foldl (fun bf x =>
    if 0 ≤ x ∧ x < width then
      let y_p := leq (x : ℚ)
      (intRange (qtrunc y_p - delta) (qtrunc y_p + delta + extra)).foldl (fun bf2 y =>
        if 0 ≤ y ∧ y < height then wr bf2 (x + y * width) 255 else bf2) bf
    else bf) buf

/-- `draw_parametrized_curve(...)`: sample the parametric curve at
`4 * height + 1` points, de-duplicate integer positions through `seen`, and
additively (saturating at 255) plot a thickness-sized square at each sample;
every write is guarded by `0 <= x < width` and `0 <= y < height`. -/
def draw_parametrized_curve (buf : Buf) (width height : ℤ)
    (thickness_in_pixels : ℤ) (xfunc yfunc : ℚ → ℚ) : Buf :=
  let num_samples := height * 4
  let delta := Int.fdiv thickness_in_pixels 2
  let extra := Int.fmod thickness_in_pixels 2
  ((intRange 0 (num_samples + 1)).foldl (fun sb (i : ℤ) =>
    let t : ℚ := (i : ℚ) / ((num_samples : ℤ) : ℚ)
    let x_p := qtrunc (xfunc t)
    let y_p := qtrunc (yfunc t)
    if (x_p, y_p) ∈ sb.1 then sb
    else
      (⟨(x_p, y_p) :: sb.1,
        (intRange (y_p - delta) (y_p + delta + extra)).foldl (fun b2 y =>
          if 0 ≤ y ∧ y < height then
            (intRange (x_p - delta) (x_p + delta + extra)).foldl (fun b3 x =>
              if 0 ≤ x ∧ x < width then
                wr b3 (y * width + x) (min 255 (b3 (y * width + x) + 255))
              else b3) b2
          else b2) sb.2⟩ : List (ℤ × ℤ) × Buf))
    (⟨[], buf⟩ : List (ℤ × ℤ) × Buf)).2

/-- `bezier_eq(p0, p1, p2, p3)`: the cubic Bernstein form used by
`cubic_bezier`. -/
def bezier_eq (p0 p1 p2 p3 : ℚ) : ℚ → ℚ := fun t =>
  let tm1 := 1 - t
  let tm1_3 := tm1 * tm1 * tm1
  let t_3 := t * t * t
  tm1_3 * p0 + 3 * t * tm1 * (tm1 * p1 + t * p2) + t_3 * p3

/-- `cubic_bezier(start, end, c1, c2)`: the pair of parametric coordinate
functions. -/
def cubic_bezier (start stop c1 c2 : ℤ × ℤ) : (ℚ → ℚ) × (ℚ → ℚ) :=
  ⟨bezier_eq (start.1 : ℚ) (c1.1 : ℚ) (c2.1 : ℚ) (stop.1 : ℚ),
    bezier_eq (start.2 : ℚ) (c1.2 : ℚ) (c2.2 : ℚ) (stop.2 : ℚ)⟩

/-- The loop of `find_bezier_for_D`, made total with fuel (the source loop
increments `cx` until the Bezier midpoint passes the right edge, which always
happens; `none` is unreachable for sufficient fuel). -/
def find_bezier_for_D_loop (width height : ℤ) : ℤ → ℤ → ℕ → Option ℤ
  | _, _, 0 => none
  | cx, last_cx, fuel + 1 =>
    let bz := cubic_bezier (0, 0) (0, height - 1) (cx, 0) (cx, height - 1)
    if bz.1 (1/2) > (width : ℚ) - 1 then some last_cx
    else find_bezier_for_D_loop width height (cx + 1) cx fuel

/-- `find_bezier_for_D(width, height)`: largest horizontal control offset whose
Bezier midpoint stays inside the right edge. -/
def find_bezier_for_D (width height : ℤ) : Option ℤ :=
  find_bezier_for_D_loop width height (width - 1) (width - 1) (width.toNat + 8)

/-- The inner loop of `find_t_for_x`, made total with fuel; `none` models the
`ValueError` raised when the step shrinks below 1e-6 (or fuel exhaustion). -/
def find_t_loop (bx : ℚ → ℚ) (t_limit x : ℚ) : ℚ → ℚ → ℕ → Option ℚ
  | _, _, 0 => none
  | start_t, increment, fuel + 1 =>
    let q := bx (start_t + increment)
    if |q - x| < 1/10 then some (start_t + increment)
    else if q > x then
      let inc2 := increment / 2
      if inc2 < 1/1000000 then none
      else find_t_loop bx t_limit x start_t inc2 fuel
    else
      let st2 := start_t + increment
      let inc2 := t_limit - st2
      if inc2 ≤ 0 then some st2
      else find_t_loop bx t_limit x st2 inc2 fuel

/-- `find_t_for_x(x, start_t)` from `get_bezier_limits`. -/
def find_t_for_x (bx : ℚ → ℚ) (t_limit x start_t : ℚ) : Option ℚ :=
  if |bx start_t - x| < 1/10 then some start_t
  else
    let increment := t_limit - start_t
    if increment ≤ 0 then some start_t
    else find_t_loop bx t_limit x start_t increment 100000

/-- The per-column loop of `get_bezier_limits`: advance `last_t`, stop once the
two mirrored bounds converge within 2, otherwise yield `(upper, lower)`. -/
def bezier_limits_go (bx byy : ℚ → ℚ) (start_x : ℤ) : ℚ → List ℤ → Option (List (ℚ × ℚ))
  | _, [] => some []
  | last_t, x :: rest =>
    match (if x > start_x then find_t_for_x bx (1/2) (x : ℚ) last_t else some last_t) with
    | none => none
    | some t' =>
      let upper := byy t'
      let lower := byy (1 - t')
      if |upper - lower| ≤ 2 then some []
      else (bezier_limits_go bx byy start_x t' rest).map (fun l => (upper, lower) :: l)

/-- `get_bezier_limits(bezier_x, bezier_y)` collected into a list; `none`
models the propagated `ValueError`. -/
def get_bezier_limits (bx byy : ℚ → ℚ) : Option (List (ℚ × ℚ)) :=
  let start_x := qtrunc (bx 0)
  let max_x := qtrunc (bx (1/2))
  bezier_limits_go bx byy start_x 0 (intRange start_x (max_x + 1))

/-- The unwrapped `D(buf, width, height, left)` body: compute the Bezier
limits, then either `fill_region` directly (`left`) or fill a fresh buffer and
copy it mirrored into `buf`. -/
def D_inner (buf : Buf) (width height : ℤ) (left : Bool) : Option Buf :=
  match find_bezier_for_D width height with
  | none => none
  | some c1x =>
    let bz := cubic_bezier (0, 0) (0, height - 1) (c1x, 0) (c1x, height - 1)
    match get_bezier_limits bz.1 bz.2 with
    | none => none
    | some xlimits =>
      if left then some (fill_region buf width height xlimits)
      else
        let mbuf := fill_region zeroBuf width height xlimits
        some ((intRange 0 height).foldl (fun b y =>
          (intRange 0 width).foldl (fun b2 src_x =>
            wr b2 (y * width + (width - 1 - src_x)) (mbuf (y * width + src_x))) b) buf)

/-- The supersampled `D` exactly as dispatched: run the body at 4× dimensions
on a fresh zero scratch buffer, then downsample into `buf` (the `supersampled`
wrapper specialised to an error-propagating routine). -/
def D (buf : Buf) (width height : ℤ) (left : Bool) : Option Buf :=
  (D_inner zeroBuf (4 * width) (4 * height) left).map
    (fun ss => downsample ss buf width height 4)

/-- The process-wide mutable state read by `render_box_char`: the scale table
and `_dpi`. -/
abbrev GState := (ℕ → ℚ) × ℚ

/-- Modelled from the spec: the glyph dispatch table keyed by character.  The
character literals in the source are unreadable (replaced by `???`), so the
key identities come from the spec: U+2500 `─` is the level-1 full horizontal
line, U+2502 `│` the level-1 full vertical line, and U+253C `┼` — "a full
cross, both full-strength lines through center" — is the cross-family entry
`i = 0`, i.e. `cross` with all four arms at level 1.  Characters outside the
table have no recipe. -/
def boxChars (ch : Char) : Option (List (Ctx → Buf → ℤ → ℤ → Buf)) :=
  if ch = '─' then some [fun c b w h => hline c b w h 1]
  else if ch = '│' then some [fun c b w h => vline c b w h 1]
  else if ch = '┼' then some [fun c b w h => cross c b w h 1 1 1 1]
  else none

/-- `render_box_char(ch, buf, width, height, dpi)`: set the global `_dpi`,
look up the recipe (`none` models the KeyError/UnknownGlyph raised before any
drawing step runs), and execute the steps in order. -/
def render_box_char (st : GState) (ch : Char) (buf : Buf) (width height : ℤ)
    (dpi : ℚ) : GState × Option Buf :=
  let st' : GState := (st.1, dpi)
  match boxChars ch with
  | none => (st', none)
  | some fs => (st', some (fs.foldl (fun b f => f ⟨st'.1, st'.2⟩ b width height) buf))

/-- The process-wide state left behind by a sequence of `render_box_char`
calls (each at its own character and DPI). -/
def runRenders (st : GState) (calls : List (Char × ℚ)) (buf : Buf) (width height : ℤ) :
    GState :=
  calls.foldl (fun s call => (render_box_char s call.1 buf width height call.2).1) st

end BoxDrawing

namespace BoxDrawing

/-! ### Generic characterizations of the write loops -/

theorem wr_eval (b : Buf) (j : ℤ) (v : ℕ) (i : ℤ) :
    wr b j v i = if i = j then v else b i := rfl

theorem mem_intRangeAux {a lo : ℤ} {n : ℕ} :
    a ∈ intRangeAux lo n ↔ lo ≤ a ∧ a < lo + n := by
  induction n generalizing lo with
  | zero => simp [intRangeAux]
  | succ n ih =>
    simp only [intRangeAux, List.mem_cons, ih]
    constructor
    · rintro (rfl | ⟨h1, h2⟩) <;> omega
    · rintro ⟨h1, h2⟩
      push_cast
      omega

theorem mem_intRange {lo hi a : ℤ} : a ∈ intRange lo hi ↔ lo ≤ a ∧ a < hi := by
  unfold intRange
  rw [mem_intRangeAux]
  omega

/-- A fold of steps, each of which sets to the constant `v` exactly the offsets
satisfying `S k`, sets to `v` exactly the union of the `S k`. -/
theorem foldl_const_set {α : Type} (v : ℕ) (S : α → ℤ → Prop) [∀ k i, Decidable (S k i)]
    (step : Buf → α → Buf)
    (hstep : ∀ k b i, step b k i = if S k i then v else b i)
    (L : List α) (b : Buf) (i : ℤ) :
    (L.foldl step b) i = if ∃ k ∈ L, S k i then v else b i := by
  induction L generalizing b with
  | nil => simp
  | cons k0 rest ih =>
    simp only [List.foldl_cons]
    rw [ih]
    by_cases h0 : S k0 i
    · have h1 : ∃ k ∈ k0 :: rest, S k i := ⟨k0, by simp, h0⟩
      by_cases h2 : ∃ k ∈ rest, S k i
      · simp [h1, h2]
      · simp [h1, h2, hstep, h0]
    · by_cases h2 : ∃ k ∈ rest, S k i
      · have h1 : ∃ k ∈ k0 :: rest, S k i := by
          obtain ⟨k, hk, hs⟩ := h2
          exact ⟨k, by simp [hk], hs⟩
        simp [h1, h2]
      · have h1 : ¬ ∃ k ∈ k0 :: rest, S k i := by
          rintro ⟨k, hk, hs⟩
          rcases List.mem_cons.mp hk with rfl | hk'
          · exact h0 hs
          · exact h2 ⟨k, hk', hs⟩
        simp [h1, h2, hstep, h0]

/-- The inner loop of the line primitives: a fold writing `v` at `g x` for `x`
in the list. -/
theorem foldl_wr_const {α : Type} (v : ℕ) (g : α → ℤ) (L : List α) (b : Buf) (i : ℤ) :
    (L.foldl (fun b2 x => wr b2 (g x) v) b) i = if ∃ k ∈ L, i = g k then v else b i := by
  apply foldl_const_set v (fun k i => i = g k)
  intro k b' i'
  rfl

end BoxDrawing

namespace BoxDrawing

/-! ### C5 / C6: the thickness formula -/

theorem qceil_eq_ceil (q : ℚ) : qceil q = ⌈q⌉ := by
  unfold qceil
  set n := q.num with hn
  set d := (q.den : ℤ) with hd
  have hdpos : 0 < d := by
    rw [hd]
    exact_mod_cast q.pos
  set z := Int.fdiv (n + d - 1) d with hz
  have hmod := Int.fdiv_add_fmod (n + d - 1) d
  have hmn : 0 ≤ Int.fmod (n + d - 1) d := Int.fmod_nonneg' _ (by omega)
  have hml : Int.fmod (n + d - 1) d < d := Int.fmod_lt_of_pos _ hdpos
  have hq : q = (n : ℚ) / (d : ℚ) := by
    rw [hn, hd]
    exact (Rat.num_div_den q).symm
  symm
  rw [Int.ceil_eq_iff]
  have hdq : (0 : ℚ) < (d : ℚ) := by exact_mod_cast hdpos
  constructor
  · rw [hq]
    rw [lt_div_iff hdq]
    have h1 : d * (z - 1) < n := by nlinarith [hmod, hmn, hml]
    calc ((z : ℚ) - 1) * (d : ℚ) = ((d * (z - 1) : ℤ) : ℚ) := by push_cast; ring
      _ < ((n : ℤ) : ℚ) := by exact_mod_cast h1
  · rw [hq]
    rw [div_le_iff hdq]
    have h2 : n ≤ d * z := by nlinarith [hmod, hmn, hml]
    calc ((n : ℤ) : ℚ) ≤ ((d * z : ℤ) : ℚ) := by exact_mod_cast h2
      _ = (z : ℚ) * (d : ℚ) := by push_cast; ring

theorem thickness_eval (sc : ℕ → ℚ) (dpi : ℚ) (level : ℕ) (horizontal : Bool) :
    thickness ⟨sc, dpi⟩ level horizontal = ⌈sc level * (dpi / 72)⌉ :=
  qceil_eq_ceil _

end BoxDrawing

/-- C5: for every level in {0,1,2,3} and dpi > 0, `thickness(level, horizontal)`
equals `ceil(scale[level] * dpi / 72)`, and the result is the same for
`horizontal = true` and `horizontal = false`. -/
theorem C5_thickness_formula (sc : ℕ → ℚ) (level : ℕ) (hl : level < 4)
    (dpi : ℚ) (hd : 0 < dpi) (horizontal : Bool) :
    BoxDrawing.thickness ⟨sc, dpi⟩ level horizontal = ⌈sc level * dpi / 72⌉ ∧
    BoxDrawing.thickness ⟨sc, dpi⟩ level true = BoxDrawing.thickness ⟨sc, dpi⟩ level false := by
  refine ⟨?_, rfl⟩
  rw [BoxDrawing.thickness_eval, mul_div_assoc]

theorem C5_thickness_formula_witness :
    ((1 : ℕ) < 4 ∧ (0 : ℚ) < 96) ∧
    (BoxDrawing.thickness ⟨BoxDrawing.defaultScale, 96⟩ 1 true =
        ⌈BoxDrawing.defaultScale 1 * 96 / 72⌉ ∧
      BoxDrawing.thickness ⟨BoxDrawing.defaultScale, 96⟩ 1 true =
        BoxDrawing.thickness ⟨BoxDrawing.defaultScale, 96⟩ 1 false) :=
  ⟨⟨by decide, by decide⟩,
    C5_thickness_formula BoxDrawing.defaultScale 1 (by decide) 96 (by decide) true⟩

/-- C6: with the default scale table, `thickness` is monotone in the level and
in the DPI, and is always at least 1 (for levels 0–3 and positive DPI). -/
theorem C6_thickness_monotone (l l' : ℕ) (hll : l ≤ l') (hl' : l' ≤ 3)
    (d d' : ℚ) (hd : 0 < d) (hdd : d ≤ d') :
    BoxDrawing.thickness ⟨BoxDrawing.defaultScale, d⟩ l true ≤
      BoxDrawing.thickness ⟨BoxDrawing.defaultScale, d'⟩ l' true ∧
    1 ≤ BoxDrawing.thickness ⟨BoxDrawing.defaultScale, d⟩ l true := by
  have hl : l ≤ 3 := le_trans hll hl'
  have hpos : 0 < BoxDrawing.defaultScale l := by
    interval_cases l <;> norm_num [BoxDrawing.defaultScale]
  have hmono : BoxDrawing.defaultScale l ≤ BoxDrawing.defaultScale l' := by
    interval_cases l <;> interval_cases l' <;> norm_num [BoxDrawing.defaultScale] <;> omega
  constructor
  · rw [BoxDrawing.thickness_eval, BoxDrawing.thickness_eval]
    apply Int.ceil_le_ceil
    have hdiv : d / 72 ≤ d' / 72 := by
      apply div_le_div_of_nonneg_right hdd
      norm_num
    calc BoxDrawing.defaultScale l * (d / 72)
        ≤ BoxDrawing.defaultScale l' * (d / 72) := by
          apply mul_le_mul_of_nonneg_right hmono
          positivity
      _ ≤ BoxDrawing.defaultScale l' * (d' / 72) := by
          apply mul_le_mul_of_nonneg_left hdiv
          exact le_trans hpos.le hmono
  · rw [BoxDrawing.thickness_eval]
    have : (0:ℚ) < BoxDrawing.defaultScale l * (d / 72) := by positivity
    have := Int.ceil_pos.mpr this
    omega

theorem C6_thickness_monotone_witness :
    ((0 : ℕ) ≤ 1 ∧ (1 : ℕ) ≤ 3 ∧ (0 : ℚ) < 72 ∧ (72 : ℚ) ≤ 96) ∧
    (BoxDrawing.thickness ⟨BoxDrawing.defaultScale, 72⟩ 0 true ≤
        BoxDrawing.thickness ⟨BoxDrawing.defaultScale, 96⟩ 1 true ∧
      1 ≤ BoxDrawing.thickness ⟨BoxDrawing.defaultScale, 72⟩ 0 true) :=
  ⟨⟨by decide, by decide, by decide, by decide⟩,
    C6_thickness_monotone 0 1 (by decide) (by decide) 72 96 (by decide) (by decide)⟩

namespace BoxDrawing

/-! ### Offset decomposition and the line primitives -/

/-- Row-major offsets decompose uniquely when the column is in range. -/
theorem offset_unique {width x x' y y' : ℤ} (hw : 0 < width)
    (hx : 0 ≤ x) (hxw : x < width) (hx' : 0 ≤ x') (hxw' : x' < width)
    (h : y * width + x = y' * width + x') : y = y' ∧ x = x' := by
  rcases lt_trichotomy y y' with hlt | heq | hgt
  · exfalso
    have h1 : (1 : ℤ) ≤ y' - y := by omega
    have h2 : width * 1 ≤ width * (y' - y) := by
      apply mul_le_mul_of_nonneg_left h1 hw.le
    have h3 : x - x' = width * (y' - y) := by linear_combination h
    omega
  · subst heq
    omega
  · exfalso
    have h1 : (1 : ℤ) ≤ y - y' := by omega
    have h2 : width * 1 ≤ width * (y - y') := by
      apply mul_le_mul_of_nonneg_left h1 hw.le
    have h3 : x' - x = width * (y - y') := by linear_combination -h
    omega

theorem draw_hline_eval (c : Ctx) (buf : Buf) (width x1 x2 y : ℤ) (level : ℕ) (i : ℤ) :
    draw_hline c buf width x1 x2 y level i =
      if ∃ yy ∈ intRange (y - Int.fdiv (thickness c level false) 2)
          (y - Int.fdiv (thickness c level false) 2 + thickness c level false),
          ∃ x ∈ intRange x1 x2, i = yy * width + x
      then 255 else buf i := by
  unfold draw_hline
  exact foldl_const_set 255 (fun yy j => ∃ x ∈ intRange x1 x2, j = yy * width + x)
    (fun b yy => (intRange x1 x2).foldl (fun b2 x => wr b2 (yy * width + x) 255) b)
    (fun yy b j => foldl_wr_const 255 (fun x => yy * width + x) (intRange x1 x2) b j)
    _ buf i

theorem draw_vline_eval (c : Ctx) (buf : Buf) (width y1 y2 x : ℤ) (level : ℕ) (i : ℤ) :
    draw_vline c buf width y1 y2 x level i =
      if ∃ xx ∈ intRange (x - Int.fdiv (thickness c level true) 2)
          (x - Int.fdiv (thickness c level true) 2 + thickness c level true),
          ∃ y ∈ intRange y1 y2, i = xx + y * width
      then 255 else buf i := by
  unfold draw_vline
  exact foldl_const_set 255 (fun xx j => ∃ y ∈ intRange y1 y2, j = xx + y * width)
    (fun b xx => (intRange y1 y2).foldl (fun b2 y => wr b2 (xx + y * width) 255) b)
    (fun xx b j => foldl_wr_const 255 (fun y => xx + y * width) (intRange y1 y2) b j)
    _ buf i

/-- `draw_hline` at an in-range pixel `(px, py)`: 255 exactly on the band. -/
theorem draw_hline_pixel (c : Ctx) (buf : Buf) (width x1 x2 y : ℤ) (level : ℕ)
    (px py : ℤ) (hw : 0 < width) (hx1 : 0 ≤ x1) (hx2 : x2 ≤ width)
    (hpx : 0 ≤ px) (hpxw : px < width) :
    draw_hline c buf width x1 x2 y level (py * width + px) =
      if (x1 ≤ px ∧ px < x2) ∧
          (y - Int.fdiv (thickness c level false) 2 ≤ py ∧
            py < y - Int.fdiv (thickness c level false) 2 + thickness c level false)
      then 255 else buf (py * width + px) := by
  rw [draw_hline_eval]
  congr 1
  apply propext
  constructor
  · rintro ⟨yy, hyy, xx, hxx, heq⟩
    rw [mem_intRange] at hyy hxx
    have hd := offset_unique hw hpx hpxw (by omega) (by omega) heq
    constructor
    · omega
    · omega
  · rintro ⟨⟨ha, hb⟩, ⟨hc2, hd2⟩⟩
    exact ⟨py, mem_intRange.mpr ⟨hc2, hd2⟩, px, mem_intRange.mpr ⟨ha, hb⟩, rfl⟩

/-- `draw_vline` at an in-range pixel `(px, py)`: 255 exactly on the band. -/
theorem draw_vline_pixel (c : Ctx) (buf : Buf) (width y1 y2 x : ℤ) (level : ℕ)
    (px py : ℤ) (hw : 0 < width)
    (hb1 : 0 ≤ x - Int.fdiv (thickness c level true) 2)
    (hb2 : x - Int.fdiv (thickness c level true) 2 + thickness c level true ≤ width)
    (hpx : 0 ≤ px) (hpxw : px < width) :
    draw_vline c buf width y1 y2 x level (py * width + px) =
      if (x - Int.fdiv (thickness c level true) 2 ≤ px ∧
            px < x - Int.fdiv (thickness c level true) 2 + thickness c level true) ∧
          (y1 ≤ py ∧ py < y2)
      then 255 else buf (py * width + px) := by
  rw [draw_vline_eval]
  congr 1
  apply propext
  constructor
  · rintro ⟨xx, hxx, yy, hyy, heq⟩
    rw [mem_intRange] at hyy hxx
    have heq' : yy * width + xx = py * width + px := by omega
    have hd := offset_unique hw (by omega) (by omega) hpx hpxw heq'
    constructor
    · omega
    · omega
  · rintro ⟨⟨ha, hb⟩, ⟨hc2, hd2⟩⟩
    refine ⟨px, mem_intRange.mpr ⟨ha, hb⟩, py, mem_intRange.mpr ⟨hc2, hd2⟩, by omega⟩

end BoxDrawing

/-- C8: `draw_hline(buf, width, x1, x2, y, level)` writes 255 to exactly the
pixels with column in `[x1, x2)` and row in `[y - sz//2, y - sz//2 + sz)` where
`sz = thickness(level, horizontal=False)`, leaving every other pixel
unchanged; `draw_vline` is the transpose (with `sz = thickness(level,
horizontal=True)`). -/
theorem C8_line_band (c : BoxDrawing.Ctx) (buf bufv : BoxDrawing.Buf)
    (width x1 x2 y y1 y2 x px py : ℤ) (level : ℕ)
    (h : 0 < width ∧ 0 ≤ x1 ∧ x2 ≤ width ∧ 0 ≤ px ∧ px < width ∧
      0 ≤ x - Int.fdiv (BoxDrawing.thickness c level true) 2 ∧
      x - Int.fdiv (BoxDrawing.thickness c level true) 2 +
        BoxDrawing.thickness c level true ≤ width) :
    (BoxDrawing.draw_hline c buf width x1 x2 y level (py * width + px) =
      if (x1 ≤ px ∧ px < x2) ∧
          (y - Int.fdiv (BoxDrawing.thickness c level false) 2 ≤ py ∧
            py < y - Int.fdiv (BoxDrawing.thickness c level false) 2 +
              BoxDrawing.thickness c level false)
      then 255 else buf (py * width + px)) ∧
    (BoxDrawing.draw_vline c bufv width y1 y2 x level (py * width + px) =
      if (x - Int.fdiv (BoxDrawing.thickness c level true) 2 ≤ px ∧
            px < x - Int.fdiv (BoxDrawing.thickness c level true) 2 +
              BoxDrawing.thickness c level true) ∧
          (y1 ≤ py ∧ py < y2)
      then 255 else bufv (py * width + px)) := by
  obtain ⟨hw, hx1, hx2, hpx, hpxw, hb1, hb2⟩ := h
  exact ⟨BoxDrawing.draw_hline_pixel c buf width x1 x2 y level px py hw hx1 hx2 hpx hpxw,
    BoxDrawing.draw_vline_pixel c bufv width y1 y2 x level px py hw hb1 hb2 hpx hpxw⟩

theorem C8_line_band_witness :
    ((0:ℤ) < 16 ∧ (0:ℤ) ≤ 0 ∧ (16:ℤ) ≤ 16 ∧ (0:ℤ) ≤ 3 ∧ (3:ℤ) < 16 ∧
      0 ≤ 8 - Int.fdiv (BoxDrawing.thickness ⟨BoxDrawing.defaultScale, 96⟩ 1 true) 2 ∧
      8 - Int.fdiv (BoxDrawing.thickness ⟨BoxDrawing.defaultScale, 96⟩ 1 true) 2 +
        BoxDrawing.thickness ⟨BoxDrawing.defaultScale, 96⟩ 1 true ≤ 16) ∧
    ((BoxDrawing.draw_hline ⟨BoxDrawing.defaultScale, 96⟩ BoxDrawing.zeroBuf 16 0 16 8 1
        (4 * 16 + 3) =
      if ((0:ℤ) ≤ 3 ∧ (3:ℤ) < 16) ∧
          (8 - Int.fdiv (BoxDrawing.thickness ⟨BoxDrawing.defaultScale, 96⟩ 1 false) 2 ≤ 4 ∧
            (4:ℤ) < 8 - Int.fdiv (BoxDrawing.thickness ⟨BoxDrawing.defaultScale, 96⟩ 1 false) 2 +
              BoxDrawing.thickness ⟨BoxDrawing.defaultScale, 96⟩ 1 false)
      then 255 else BoxDrawing.zeroBuf (4 * 16 + 3)) ∧
    (BoxDrawing.draw_vline ⟨BoxDrawing.defaultScale, 96⟩ BoxDrawing.zeroBuf 16 0 16 8 1
        (4 * 16 + 3) =
      if ((8:ℤ) - Int.fdiv (BoxDrawing.thickness ⟨BoxDrawing.defaultScale, 96⟩ 1 true) 2 ≤ 3 ∧
            (3:ℤ) < 8 - Int.fdiv (BoxDrawing.thickness ⟨BoxDrawing.defaultScale, 96⟩ 1 true) 2 +
              BoxDrawing.thickness ⟨BoxDrawing.defaultScale, 96⟩ 1 true) ∧
          ((0:ℤ) ≤ 4 ∧ (4:ℤ) < 16)
      then 255 else BoxDrawing.zeroBuf (4 * 16 + 3))) :=
  ⟨by decide,
    C8_line_band ⟨BoxDrawing.defaultScale, 96⟩ BoxDrawing.zeroBuf BoxDrawing.zeroBuf
      16 0 16 8 0 16 8 3 4 1 (by decide)⟩

/-- C1: rendering `┼` (full cross, all arms level 1) on a zero 16×16 buffer at
DPI 96 succeeds and sets exactly the central horizontal band (rows of
thickness `thickness(1)` centered on row 8, all 16 columns) and the central
vertical band (columns of thickness `thickness(1)` centered on column 8, all
16 rows) to 255, leaving every pixel outside both bands at 0. -/
theorem C1_render_full_cross :
    (BoxDrawing.render_box_char (BoxDrawing.defaultScale, 0) '┼'
        BoxDrawing.zeroBuf 16 16 96).2.isSome = true ∧
    (∀ x : ℕ, x < 16 → ∀ y : ℕ, y < 16 →
      ((BoxDrawing.render_box_char (BoxDrawing.defaultScale, 0) '┼'
            BoxDrawing.zeroBuf 16 16 96).2.getD BoxDrawing.zeroBuf)
          ((y : ℤ) * 16 + (x : ℤ)) =
        if (8 - Int.fdiv (BoxDrawing.thickness ⟨BoxDrawing.defaultScale, 96⟩ 1 false) 2 ≤ (y : ℤ) ∧
              (y : ℤ) < 8 - Int.fdiv (BoxDrawing.thickness ⟨BoxDrawing.defaultScale, 96⟩ 1 false) 2 +
                BoxDrawing.thickness ⟨BoxDrawing.defaultScale, 96⟩ 1 false) ∨
            (8 - Int.fdiv (BoxDrawing.thickness ⟨BoxDrawing.defaultScale, 96⟩ 1 true) 2 ≤ (x : ℤ) ∧
              (x : ℤ) < 8 - Int.fdiv (BoxDrawing.thickness ⟨BoxDrawing.defaultScale, 96⟩ 1 true) 2 +
                BoxDrawing.thickness ⟨BoxDrawing.defaultScale, 96⟩ 1 true)
        then 255 else 0) := by
  constructor
  · rfl
  · decide

/-- C2: `render_box_char` fails (UnknownGlyph) if and only if the character
has no recipe in the glyph table, and on failure the caller's buffer is
untouched — the lookup precedes every drawing step, so no new buffer is
produced and the observed buffer is exactly the input. -/
theorem C2_unknown_glyph (st : BoxDrawing.GState) (ch : Char) (buf : BoxDrawing.Buf)
    (w h : ℤ) (dpi : ℚ) :
    ((BoxDrawing.render_box_char st ch buf w h dpi).2 = none ↔
      BoxDrawing.boxChars ch = none) ∧
    (BoxDrawing.boxChars ch = none →
      (BoxDrawing.render_box_char st ch buf w h dpi).2.getD buf = buf) := by
  unfold BoxDrawing.render_box_char
  cases hbc : BoxDrawing.boxChars ch <;> simp [hbc]

theorem C2_unknown_glyph_witness :
    (((BoxDrawing.render_box_char (BoxDrawing.defaultScale, 0) 'a'
          BoxDrawing.zeroBuf 16 16 96).2 = none ↔
        BoxDrawing.boxChars 'a' = none) ∧
      (BoxDrawing.boxChars 'a' = none →
        (BoxDrawing.render_box_char (BoxDrawing.defaultScale, 0) 'a'
            BoxDrawing.zeroBuf 16 16 96).2.getD BoxDrawing.zeroBuf = BoxDrawing.zeroBuf)) ∧
    BoxDrawing.boxChars 'a' = none :=
  ⟨C2_unknown_glyph (BoxDrawing.defaultScale, 0) 'a' BoxDrawing.zeroBuf 16 16 96, rfl⟩

/-- C9: the output of `render_box_char` depends only on its arguments and the
scale table — any sequence of interleaved render calls at other DPI values
leaves a state whose renders are byte-identical to renders from the original
state, because each call overwrites the global DPI from its argument before
drawing. -/
theorem C9_no_state_leakage (st : BoxDrawing.GState) (calls : List (Char × ℚ))
    (ch : Char) (buf bufi : BoxDrawing.Buf) (w h wi hi : ℤ) (dpi : ℚ) :
    (BoxDrawing.render_box_char (BoxDrawing.runRenders st calls bufi wi hi)
        ch buf w h dpi).2 =
      (BoxDrawing.render_box_char st ch buf w h dpi).2 := by
  have hfst : (BoxDrawing.runRenders st calls bufi wi hi).1 = st.1 := by
    unfold BoxDrawing.runRenders
    induction calls generalizing st with
    | nil => rfl
    | cons c rest ih =>
      rw [List.foldl_cons]
      rw [ih]
      unfold BoxDrawing.render_box_char
      cases BoxDrawing.boxChars c.1 <;> rfl
  unfold BoxDrawing.render_box_char
  rw [hfst]

namespace BoxDrawing

/-! ### Read-modify-write folds (for `downsample`) -/

theorem intRangeAux_nodup (lo : ℤ) (n : ℕ) : (intRangeAux lo n).Nodup := by
  induction n generalizing lo with
  | zero => simp [intRangeAux]
  | succ n ih =>
    simp only [intRangeAux, List.nodup_cons]
    refine ⟨?_, ih (lo + 1)⟩
    intro hmem
    have h2 := mem_intRangeAux.mp hmem
    omega

theorem intRange_nodup (lo hi : ℤ) : (intRange lo hi).Nodup := intRangeAux_nodup _ _

/-- A fold whose steps touch only their own offsets leaves untouched offsets
unchanged. -/
theorem foldl_touch_none (S : ℤ → ℤ → Prop) (step : Buf → ℤ → Buf)
    (hout : ∀ k b i, ¬ S k i → step b k i = b i)
    (L : List ℤ) (i : ℤ) (hnone : ∀ k ∈ L, ¬ S k i) (b : Buf) :
    (L.foldl step b) i = b i := by
  induction L generalizing b with
  | nil => rfl
  | cons k0 rest ih =>
    rw [List.foldl_cons, ih (fun k hk => hnone k (List.mem_cons_of_mem _ hk)),
      hout k0 b i (hnone k0 (List.mem_cons_self _ _))]

/-- A fold of read-modify-write steps over pairwise non-aliasing offsets: the
offset touched by exactly one step `k` ends up holding `G k i` applied to the
original value. -/
theorem foldl_touch_one (S : ℤ → ℤ → Prop) (G : ℤ → ℤ → ℕ → ℕ) (step : Buf → ℤ → Buf)
    (hin : ∀ k b i, S k i → step b k i = G k i (b i))
    (hout : ∀ k b i, ¬ S k i → step b k i = b i)
    (L : List ℤ) (i : ℤ) (hnd : L.Nodup)
    (hdisj : ∀ k ∈ L, ∀ k' ∈ L, S k i → S k' i → k = k')
    (k : ℤ) (hk : k ∈ L) (hS : S k i) (b : Buf) :
    (L.foldl step b) i = G k i (b i) := by
  induction L generalizing b with
  | nil => exact absurd hk (List.not_mem_nil k)
  | cons k0 rest ih =>
    rw [List.nodup_cons] at hnd
    rcases List.mem_cons.mp hk with rfl | hkrest
    · rw [List.foldl_cons]
      have hstep := hin k b i hS
      have hnone : ∀ k' ∈ rest, ¬ S k' i := by
        intro k' hk' hS'
        have := hdisj k (List.mem_cons_self _ _) k' (List.mem_cons_of_mem _ hk') hS hS'
        exact hnd.1 (this ▸ hk')
      rw [foldl_touch_none S step hout rest i hnone, hstep]
    · rw [List.foldl_cons]
      have hk0 : ¬ S k0 i := by
        intro hS0
        have := hdisj k0 (List.mem_cons_self _ _) k (List.mem_cons_of_mem _ hkrest) hS0 hS
        exact hnd.1 (this ▸ hkrest)
      have hb : step b k0 i = b i := hout k0 b i hk0
      rw [ih hnd.2 (fun a ha a' ha' => hdisj a (List.mem_cons_of_mem _ ha) a'
        (List.mem_cons_of_mem _ ha')) hkrest, hb]

/-- The block average computed by `downsample` (factor 4) for destination
pixel `(x, y)` of a source buffer with row stride `4 * dw`. -/
def blockAvg (src : Buf) (dw x y : ℤ) : ℕ :=
  (((intRange (y * 4) (y * 4 + 4)).map (fun yy =>
    ((intRange (x * 4) (x * 4 + 4)).map (fun xx => src (4 * dw * yy + xx))).sum)).sum) / 16

/-- `downsample` at factor 4 writes each in-range destination pixel once:
the old value plus the 4×4 block average, clamped at 255. -/
theorem downsample_pixel (src dest : Buf) (dw dh x y : ℤ)
    (hx : 0 ≤ x) (hxw : x < dw) (hy : 0 ≤ y) (hyh : y < dh) :
    downsample src dest dw dh 4 (dw * y + x) =
      min 255 (dest (dw * y + x) + blockAvg src dw x y) := by
  have hw : 0 < dw := by omega
  have hinner : ∀ (yy : ℤ) (b : Buf) (i : ℤ),
      (∃ xx ∈ intRange 0 dw, i = dw * yy + xx) →
      ((intRange 0 dw).foldl (fun b2 xx =>
        wr b2 (dw * yy + xx)
          (min 255 (b2 (dw * yy + xx) +
            (((intRange (yy * 4) (yy * 4 + 4)).map (fun y2 =>
              ((intRange (xx * 4) (xx * 4 + 4)).map
                (fun x2 => src (4 * dw * y2 + x2))).sum)).sum) / (16 : ℕ)))) b) i =
        min 255 (b i + blockAvg src dw (i - dw * yy) yy) := by
    intro yy b i hex
    obtain ⟨xx, hxx, rfl⟩ := hex
    rw [mem_intRange] at hxx
    have hsub : dw * yy + xx - dw * yy = xx := by omega
    rw [hsub]
    exact foldl_touch_one (fun k j => j = dw * yy + k)
      (fun k j v => min 255 (v + blockAvg src dw k yy))
      (fun b2 k => wr b2 (dw * yy + k)
        (min 255 (b2 (dw * yy + k) +
          (((intRange (yy * 4) (yy * 4 + 4)).map (fun y2 =>
            ((intRange (k * 4) (k * 4 + 4)).map
              (fun x2 => src (4 * dw * y2 + x2))).sum)).sum) / (16 : ℕ))))
      (by
        intro k b2 j hj
        subst hj
        simp only [wr, if_pos rfl]
        rfl)
      (by
        intro k b2 j hj
        simp only [wr]
        rw [if_neg]
        intro hc
        exact hj hc)
      (intRange 0 dw) (dw * yy + xx) (intRange_nodup 0 dw)
      (by intro k hkm k' hkm' hS hS'; omega)
      xx (mem_intRange.mpr hxx) rfl b
  have hsub : dw * y + x - dw * y = x := by omega
  have houter : ((intRange 0 dh).foldl (fun b yy =>
      (intRange 0 dw).foldl (fun b2 xx =>
        wr b2 (dw * yy + xx)
          (min 255 (b2 (dw * yy + xx) +
            (((intRange (yy * 4) (yy * 4 + 4)).map (fun y2 =>
              ((intRange (xx * 4) (xx * 4 + 4)).map
                (fun x2 => src (4 * dw * y2 + x2))).sum)).sum) / (16 : ℕ)))) b) dest)
      (dw * y + x) =
      min 255 (dest (dw * y + x) + blockAvg src dw (dw * y + x - dw * y) y) :=
    foldl_touch_one
    (fun yy j => ∃ xx ∈ intRange 0 dw, j = dw * yy + xx)
    (fun yy j v => min 255 (v + blockAvg src dw (j - dw * yy) yy))
    (fun b yy => (intRange 0 dw).foldl (fun b2 xx =>
      wr b2 (dw * yy + xx)
        (min 255 (b2 (dw * yy + xx) +
          (((intRange (yy * 4) (yy * 4 + 4)).map (fun y2 =>
            ((intRange (xx * 4) (xx * 4 + 4)).map
              (fun x2 => src (4 * dw * y2 + x2))).sum)).sum) / (16 : ℕ)))) b)
    hinner
    (by
      intro yy b j hj
      apply foldl_touch_none
      · intro k b2 i hi
        simp only [wr]
        rw [if_neg]
        intro hc
        exact hi hc
      · intro k hkm hS
        rw [mem_intRange] at hkm
        exact hj ⟨k, mem_intRange.mpr hkm, hS⟩)
    (intRange 0 dh) (dw * y + x) (intRange_nodup 0 dh)
    (by
      intro k hkm k' hkm' hS hS'
      obtain ⟨xx, hxx, hexx⟩ := hS
      obtain ⟨xx', hxx', hexx'⟩ := hS'
      rw [mem_intRange] at hxx hxx'
      have heq : k * dw + xx = k' * dw + xx' := by
        have e1 : dw * k + xx = dw * k' + xx' := by omega
        calc k * dw + xx = dw * k + xx := by ring_nf
          _ = dw * k' + xx' := e1
          _ = k' * dw + xx' := by ring_nf
      exact (offset_unique hw (by omega) (by omega) (by omega) (by omega) heq).1)
    y (mem_intRange.mpr ⟨hy, hyh⟩) ⟨x, mem_intRange.mpr ⟨hx, hxw⟩, rfl⟩ dest
  rw [hsub] at houter
  exact houter

end BoxDrawing

namespace BoxDrawing

theorem wr_ne {b : Buf} {j v i} (h : i ≠ j) : wr b j v i = b i := by
  simp only [wr]
  rw [if_neg h]

/-- A fold whose every step preserves offset `i` preserves it overall. -/
theorem foldl_fix (step : Buf → ℤ → Buf) (L : List ℤ) (i : ℤ)
    (hstep : ∀ b k, k ∈ L → step b k i = b i) :
    ∀ b : Buf, (L.foldl step b) i = b i := by
  induction L with
  | nil => intro b; rfl
  | cons k0 rest ih =>
    intro b
    rw [List.foldl_cons, ih (fun b' k hk => hstep b' k (List.mem_cons_of_mem _ hk)),
      hstep b k0 (List.mem_cons_self _ _)]

/-- Same, for a fold threading a `(seen, buffer)` pair. -/
theorem foldl_pair_fix (step : List (ℤ × ℤ) × Buf → ℤ → List (ℤ × ℤ) × Buf)
    (L : List ℤ) (i : ℤ)
    (hstep : ∀ sb k, (step sb k).2 i = sb.2 i) :
    ∀ sb, ((L.foldl step sb).2) i = sb.2 i := by
  induction L with
  | nil => intro sb; rfl
  | cons k0 rest ih =>
    intro sb
    rw [List.foldl_cons, ih, hstep]

/-- An in-range pixel `(x, y)` has an in-range flat offset. -/
theorem offset_in_bounds {w h x y : ℤ} (hx : 0 ≤ x) (hxw : x < w)
    (hy : 0 ≤ y) (hyh : y < h) : 0 ≤ x + y * w ∧ x + y * w < w * h := by
  have hw : (0:ℤ) ≤ w := by omega
  have h0 : 0 ≤ y * w := mul_nonneg hy hw
  have h1 : y + 1 ≤ h := by omega
  have h2 : (y + 1) * w ≤ h * w := mul_le_mul_of_nonneg_right h1 hw
  have h3 : (y + 1) * w = y * w + w := by ring
  have h4 : h * w = w * h := mul_comm h w
  constructor
  · omega
  · omega

end BoxDrawing

/-- C3: the `supersampled` wrapper runs the wrapped routine on a fresh zero
scratch buffer at 4× the dimensions and then sets each in-range destination
pixel to `min(255, old + avg)` where `avg` is the floor mean of the
corresponding 4×4 scratch block; for byte-valued buffers destination pixels
never decrease. -/
theorem C3_supersampled_adds_average (f : BoxDrawing.Buf → ℤ → ℤ → BoxDrawing.Buf)
    (buf : BoxDrawing.Buf) (w h x y : ℤ)
    (hc : 0 ≤ x ∧ x < w ∧ 0 ≤ y ∧ y < h ∧ buf (w * y + x) ≤ 255) :
    BoxDrawing.supersampled f buf w h (w * y + x) =
      min 255 (buf (w * y + x) +
        BoxDrawing.blockAvg (f BoxDrawing.zeroBuf (4 * w) (4 * h)) w x y) ∧
    buf (w * y + x) ≤ BoxDrawing.supersampled f buf w h (w * y + x) := by
  obtain ⟨hx, hxw, hy, hyh, hbyte⟩ := hc
  have heq : BoxDrawing.supersampled f buf w h (w * y + x) =
      min 255 (buf (w * y + x) +
        BoxDrawing.blockAvg (f BoxDrawing.zeroBuf (4 * w) (4 * h)) w x y) :=
    BoxDrawing.downsample_pixel (f BoxDrawing.zeroBuf (4 * w) (4 * h)) buf w h x y
      hx hxw hy hyh
  refine ⟨heq, ?_⟩
  rw [heq]
  omega

theorem C3_supersampled_adds_average_witness :
    ((0:ℤ) ≤ 0 ∧ (0:ℤ) < 1 ∧ (0:ℤ) ≤ 0 ∧ (0:ℤ) < 1 ∧
      BoxDrawing.zeroBuf (1 * 0 + 0) ≤ 255) ∧
    (BoxDrawing.supersampled (fun b _ _ => b) BoxDrawing.zeroBuf 1 1 (1 * 0 + 0) =
      min 255 (BoxDrawing.zeroBuf (1 * 0 + 0) +
        BoxDrawing.blockAvg ((fun (b : BoxDrawing.Buf) (_ _ : ℤ) => b)
          BoxDrawing.zeroBuf (4 * 1) (4 * 1)) 1 0 0) ∧
    BoxDrawing.zeroBuf (1 * 0 + 0) ≤
      BoxDrawing.supersampled (fun b _ _ => b) BoxDrawing.zeroBuf 1 1 (1 * 0 + 0)) :=
  ⟨⟨by decide, by decide, by decide, by decide, by decide⟩,
    C3_supersampled_adds_average (fun b _ _ => b) BoxDrawing.zeroBuf 1 1 0 0
      ⟨by decide, by decide, by decide, by decide, by decide⟩⟩

/-- C10: every write performed by `thick_line` and by
`draw_parametrized_curve` is guarded by `0 <= x < width` and
`0 <= y < height`, so for any endpoints, thickness and curve functions the
two routines never modify an offset outside `[0, width*height)`. -/
theorem C10_guarded_writes (buf bufc : BoxDrawing.Buf) (w h t : ℤ)
    (p1 p2 : ℤ × ℤ) (xf yf : ℚ → ℚ) (i : ℤ) (hi : i < 0 ∨ w * h ≤ i) :
    BoxDrawing.thick_line buf w h t p1 p2 i = buf i ∧
    BoxDrawing.draw_parametrized_curve bufc w h t xf yf i = bufc i := by
  constructor
  · unfold BoxDrawing.thick_line
    apply BoxDrawing.foldl_fix
    intro b k _
    by_cases hg : 0 ≤ k ∧ k < w
    · rw [if_pos hg]
      apply BoxDrawing.foldl_fix
      intro b2 yy _
      by_cases hgy : 0 ≤ yy ∧ yy < h
      · rw [if_pos hgy]
        apply BoxDrawing.wr_ne
        have hb := BoxDrawing.offset_in_bounds hg.1 hg.2 hgy.1 hgy.2
        omega
      · rw [if_neg hgy]
    · rw [if_neg hg]
  · unfold BoxDrawing.draw_parametrized_curve
    apply BoxDrawing.foldl_pair_fix
    intro sb k
    by_cases hseen : (BoxDrawing.qtrunc (xf ((k : ℚ) / ((h * 4 : ℤ) : ℚ))),
        BoxDrawing.qtrunc (yf ((k : ℚ) / ((h * 4 : ℤ) : ℚ)))) ∈ sb.1
    · rw [if_pos hseen]
    · rw [if_neg hseen]
      show (BoxDrawing.intRange _ _).foldl _ sb.2 i = sb.2 i
      apply BoxDrawing.foldl_fix
      intro b2 yy _
      by_cases hgy : 0 ≤ yy ∧ yy < h
      · rw [if_pos hgy]
        apply BoxDrawing.foldl_fix
        intro b3 xx _
        by_cases hgx : 0 ≤ xx ∧ xx < w
        · rw [if_pos hgx]
          apply BoxDrawing.wr_ne
          have hb := BoxDrawing.offset_in_bounds hgx.1 hgx.2 hgy.1 hgy.2
          have : yy * w + xx = xx + yy * w := by ring
          omega
        · rw [if_neg hgx]
      · rw [if_neg hgy]

theorem C10_guarded_writes_witness :
    ((100:ℤ) < 0 ∨ (2:ℤ) * 2 ≤ 100) ∧
    (BoxDrawing.thick_line BoxDrawing.zeroBuf 2 2 1 (0, 0) (1, 1) 100 =
      BoxDrawing.zeroBuf 100 ∧
    BoxDrawing.draw_parametrized_curve BoxDrawing.zeroBuf 2 2 1
      (fun t => t) (fun t => t) 100 = BoxDrawing.zeroBuf 100) :=
  ⟨by decide,
    C10_guarded_writes BoxDrawing.zeroBuf BoxDrawing.zeroBuf 2 2 1 (0, 0) (1, 1)
      (fun t => t) (fun t => t) 100 (by decide)⟩

namespace BoxDrawing

/-! ### The mirrored `D` copy loop -/

theorem intRange_four (a : ℤ) : intRange a (a + 4) = [a, a + 1, a + 2, a + 3] := by
  have h4 : (a + 4 - a).toNat = 4 := by omega
  rw [intRange, h4]
  simp [intRangeAux]
  omega

/-- The `left=False` copy loop of `D`: each in-range destination pixel of the
scratch buffer receives the horizontally mirrored pixel of `mbuf`. -/
theorem mirror_copy_pixel (mbuf buf : Buf) (W H px py : ℤ)
    (hpx : 0 ≤ px) (hpxw : px < W) (hpy : 0 ≤ py) (hpyh : py < H) :
    ((intRange 0 H).foldl (fun b y =>
      (intRange 0 W).foldl (fun b2 src_x =>
        wr b2 (y * W + (W - 1 - src_x)) (mbuf (y * W + src_x))) b) buf)
      (py * W + px) =
      mbuf (py * W + (W - 1 - px)) := by
  have hw : 0 < W := by omega
  have hinner : ∀ (yy : ℤ) (b : Buf) (i : ℤ),
      (∃ sx ∈ intRange 0 W, i = yy * W + (W - 1 - sx)) →
      ((intRange 0 W).foldl (fun b2 src_x =>
        wr b2 (yy * W + (W - 1 - src_x)) (mbuf (yy * W + src_x))) b) i =
        mbuf (yy * W + (W - 1 - (i - yy * W))) := by
    intro yy b i hex
    obtain ⟨sx, hsx, rfl⟩ := hex
    rw [mem_intRange] at hsx
    have hsub : yy * W + (W - 1 - sx) - yy * W = W - 1 - sx := by omega
    rw [hsub]
    have hgoal : yy * W + (W - 1 - (W - 1 - sx)) = yy * W + sx := by omega
    rw [hgoal]
    exact foldl_touch_one (fun k j => j = yy * W + (W - 1 - k))
      (fun k j v => mbuf (yy * W + k))
      (fun b2 k => wr b2 (yy * W + (W - 1 - k)) (mbuf (yy * W + k)))
      (by
        intro k b2 j hj
        subst hj
        simp [wr])
      (by
        intro k b2 j hj
        exact wr_ne hj)
      (intRange 0 W) (yy * W + (W - 1 - sx)) (intRange_nodup 0 W)
      (by intro k hkm k' hkm' hS hS'; omega)
      sx (mem_intRange.mpr hsx) rfl b
  have hres : ((intRange 0 H).foldl (fun b y =>
      (intRange 0 W).foldl (fun b2 src_x =>
        wr b2 (y * W + (W - 1 - src_x)) (mbuf (y * W + src_x))) b) buf)
      (py * W + px) =
      mbuf (py * W + (W - 1 - (py * W + px - py * W))) :=
    foldl_touch_one
      (fun yy j => ∃ sx ∈ intRange 0 W, j = yy * W + (W - 1 - sx))
      (fun yy j v => mbuf (yy * W + (W - 1 - (j - yy * W))))
      (fun b yy => (intRange 0 W).foldl (fun b2 src_x =>
        wr b2 (yy * W + (W - 1 - src_x)) (mbuf (yy * W + src_x))) b)
      hinner
      (by
        intro yy b j hj
        apply foldl_fix
        intro b2 k hk
        apply wr_ne
        intro hc
        exact hj ⟨k, hk, hc⟩)
      (intRange 0 H) (py * W + px) (intRange_nodup 0 H)
      (by
        intro k hkm k' hkm' hS hS'
        obtain ⟨sx, hsx, hex⟩ := hS
        obtain ⟨sx', hsx', hex'⟩ := hS'
        rw [mem_intRange] at hsx hsx'
        have heq : (W - 1 - sx) + k * W = (W - 1 - sx') + k' * W := by omega
        exact (offset_unique hw (by omega) (by omega) (by omega) (by omega)
          (by omega : k * W + (W - 1 - sx) = k' * W + (W - 1 - sx'))).1)
      py (mem_intRange.mpr ⟨hpy, hpyh⟩)
      ⟨W - 1 - px, mem_intRange.mpr ⟨by omega, by omega⟩, by omega⟩ buf
  rw [hres]
  have : py * W + px - py * W = px := by omega
  rw [this]

/-- Mirroring the scratch buffer mirrors the 4×4 block averages. -/
theorem blockAvg_mirror (ssl ssr : Buf) (w hh x y : ℤ)
    (hm : ∀ px py, 0 ≤ px → px < 4 * w → 0 ≤ py → py < 4 * hh →
      ssr (4 * w * py + px) = ssl (4 * w * py + (4 * w - 1 - px)))
    (hx : 0 ≤ x) (hxw : x < w) (hy : 0 ≤ y) (hyh : y < hh) :
    blockAvg ssr w x y = blockAvg ssl w (w - 1 - x) y := by
  unfold blockAvg
  rw [intRange_four, intRange_four, intRange_four]
  simp only [List.map_cons, List.map_nil, List.sum_cons, List.sum_nil]
  have hrow : ∀ py, 0 ≤ py → py < 4 * hh →
      ssr (4 * w * py + x * 4) + (ssr (4 * w * py + (x * 4 + 1)) +
        (ssr (4 * w * py + (x * 4 + 2)) + (ssr (4 * w * py + (x * 4 + 3)) + 0))) =
      ssl (4 * w * py + (w - 1 - x) * 4) + (ssl (4 * w * py + ((w - 1 - x) * 4 + 1)) +
        (ssl (4 * w * py + ((w - 1 - x) * 4 + 2)) +
          (ssl (4 * w * py + ((w - 1 - x) * 4 + 3)) + 0))) := by
    intro py h0 h1
    rw [hm (x * 4) py (by omega) (by omega) h0 h1,
      hm (x * 4 + 1) py (by omega) (by omega) h0 h1,
      hm (x * 4 + 2) py (by omega) (by omega) h0 h1,
      hm (x * 4 + 3) py (by omega) (by omega) h0 h1]
    have e0 : 4 * w - 1 - x * 4 = (w - 1 - x) * 4 + 3 := by ring
    have e1 : 4 * w - 1 - (x * 4 + 1) = (w - 1 - x) * 4 + 2 := by ring
    have e2 : 4 * w - 1 - (x * 4 + 2) = (w - 1 - x) * 4 + 1 := by ring
    have e3 : 4 * w - 1 - (x * 4 + 3) = (w - 1 - x) * 4 := by ring
    rw [e0, e1, e2, e3]
    omega
  rw [hrow (y * 4) (by omega) (by omega),
    hrow (y * 4 + 1) (by omega) (by omega),
    hrow (y * 4 + 2) (by omega) (by omega),
    hrow (y * 4 + 3) (by omega) (by omega)]

end BoxDrawing

/-- C7: the supersampled `D` routine with `left=True` and `left=False`, run on
zero-initialized buffers of the same even dimensions, produces exact
horizontal mirror images: `bufLeft[y*w + x] = bufRight[y*w + (w-1-x)]`. -/
theorem C7_D_mirror (w h : ℤ) (hwe : Even w) (hhe : Even h)
    (bl br : BoxDrawing.Buf)
    (hbl : BoxDrawing.D BoxDrawing.zeroBuf w h true = some bl)
    (hbr : BoxDrawing.D BoxDrawing.zeroBuf w h false = some br)
    (x y : ℤ) (hx : 0 ≤ x) (hxw : x < w) (hy : 0 ≤ y) (hyh : y < h) :
    bl (y * w + x) = br (y * w + (w - 1 - x)) := by
  rcases hfd : BoxDrawing.find_bezier_for_D (4 * w) (4 * h) with _ | c1x
  · rw [BoxDrawing.D, BoxDrawing.D_inner, hfd] at hbl
    simp at hbl
  · rcases hgl : BoxDrawing.get_bezier_limits
        (BoxDrawing.cubic_bezier (0, 0) (0, 4 * h - 1) (c1x, 0) (c1x, 4 * h - 1)).1
        (BoxDrawing.cubic_bezier (0, 0) (0, 4 * h - 1) (c1x, 0) (c1x, 4 * h - 1)).2
        with _ | xl
    · rw [BoxDrawing.D, BoxDrawing.D_inner, hfd] at hbl
      simp only [hgl, Option.map_none] at hbl
      exact absurd hbl (by simp)
    · rw [BoxDrawing.D, BoxDrawing.D_inner, hfd] at hbl hbr
      simp only [hgl, reduceIte, Bool.false_eq_true, if_false, Option.map_some',
        Option.some_inj] at hbl hbr
      set ssl := BoxDrawing.fill_region BoxDrawing.zeroBuf (4 * w) (4 * h) xl with hssl
      have hm : ∀ px py, 0 ≤ px → px < 4 * w → 0 ≤ py → py < 4 * h →
          ((BoxDrawing.intRange 0 (4 * h)).foldl (fun b y =>
            (BoxDrawing.intRange 0 (4 * w)).foldl (fun b2 src_x =>
              BoxDrawing.wr b2 (y * (4 * w) + (4 * w - 1 - src_x))
                (ssl (y * (4 * w) + src_x))) b) BoxDrawing.zeroBuf)
            (4 * w * py + px) =
            ssl (4 * w * py + (4 * w - 1 - px)) := by
        intro px py hpx hpxw hpy hpyh
        have e1 : 4 * w * py + px = py * (4 * w) + px := by ring
        have e2 : 4 * w * py + (4 * w - 1 - px) = py * (4 * w) + (4 * w - 1 - px) := by
          ring
        rw [e1, e2]
        exact BoxDrawing.mirror_copy_pixel ssl BoxDrawing.zeroBuf (4 * w) (4 * h)
          px py hpx hpxw hpy hpyh
      have hbl2 : bl (y * w + x) =
          min 255 (BoxDrawing.zeroBuf (w * y + x) + BoxDrawing.blockAvg ssl w x y) := by
        rw [← hbl]
        have e1 : y * w + x = w * y + x := by ring
        rw [e1]
        exact BoxDrawing.downsample_pixel ssl BoxDrawing.zeroBuf w h x y hx hxw hy hyh
      have hbr2 : br (y * w + (w - 1 - x)) =
          min 255 (BoxDrawing.zeroBuf (w * y + (w - 1 - x)) +
            BoxDrawing.blockAvg ssl w x y) := by
        rw [← hbr]
        have e1 : y * w + (w - 1 - x) = w * y + (w - 1 - x) := by ring
        rw [e1]
        have hds := BoxDrawing.downsample_pixel
          ((BoxDrawing.intRange 0 (4 * h)).foldl (fun b y =>
            (BoxDrawing.intRange 0 (4 * w)).foldl (fun b2 src_x =>
              BoxDrawing.wr b2 (y * (4 * w) + (4 * w - 1 - src_x))
                (ssl (y * (4 * w) + src_x))) b) BoxDrawing.zeroBuf)
          BoxDrawing.zeroBuf w h (w - 1 - x) y (by omega) (by omega) hy hyh
        rw [hds]
        have hmb := BoxDrawing.blockAvg_mirror ssl
          ((BoxDrawing.intRange 0 (4 * h)).foldl (fun b y =>
            (BoxDrawing.intRange 0 (4 * w)).foldl (fun b2 src_x =>
              BoxDrawing.wr b2 (y * (4 * w) + (4 * w - 1 - src_x))
                (ssl (y * (4 * w) + src_x))) b) BoxDrawing.zeroBuf)
          w h (w - 1 - x) y hm (by omega) (by omega) hy hyh
        rw [hmb]
        have e2 : w - 1 - (w - 1 - x) = x := by omega
        rw [e2]
      rw [hbl2, hbr2]
      simp [BoxDrawing.zeroBuf]

theorem C7_D_mirror_witness :
    (Even (2:ℤ) ∧ Even (2:ℤ) ∧
      BoxDrawing.D BoxDrawing.zeroBuf 2 2 true =
        some ((BoxDrawing.D BoxDrawing.zeroBuf 2 2 true).getD BoxDrawing.zeroBuf) ∧
      BoxDrawing.D BoxDrawing.zeroBuf 2 2 false =
        some ((BoxDrawing.D BoxDrawing.zeroBuf 2 2 false).getD BoxDrawing.zeroBuf) ∧
      (0:ℤ) ≤ 0 ∧ (0:ℤ) < 2 ∧ (0:ℤ) ≤ 1 ∧ (1:ℤ) < 2) ∧
    ((BoxDrawing.D BoxDrawing.zeroBuf 2 2 true).getD BoxDrawing.zeroBuf) (1 * 2 + 0) =
      ((BoxDrawing.D BoxDrawing.zeroBuf 2 2 false).getD BoxDrawing.zeroBuf)
        (1 * 2 + (2 - 1 - 0)) := by
  have hs1 : BoxDrawing.D BoxDrawing.zeroBuf 2 2 true =
      some ((BoxDrawing.D BoxDrawing.zeroBuf 2 2 true).getD BoxDrawing.zeroBuf) := by
    rfl
  have hs2 : BoxDrawing.D BoxDrawing.zeroBuf 2 2 false =
      some ((BoxDrawing.D BoxDrawing.zeroBuf 2 2 false).getD BoxDrawing.zeroBuf) := by
    rfl
  refine ⟨⟨⟨1, by decide⟩, ⟨1, by decide⟩, hs1, hs2, by decide, by decide, by decide,
    by decide⟩, ?_⟩
  exact C7_D_mirror 2 2 ⟨1, by decide⟩ ⟨1, by decide⟩ _ _ hs1 hs2 0 1
    (by decide) (by decide) (by decide) (by decide)

namespace BoxDrawing

/-! ### The holed-line pipeline (for the hole/run analysis) -/

theorem fdiv_decomp (a b : ℤ) (hb : 0 < b) :
    b * Int.fdiv a b ≤ a ∧ a < b * Int.fdiv a b + b := by
  have h1 := Int.fdiv_add_fmod a b
  have h2 := Int.fmod_nonneg' a hb
  have h3 := Int.fmod_lt_of_pos a hb
  omega

theorem half_hline_left (c : Ctx) (buf : Buf) (w h : ℤ) (lvl : ℕ) (e : ℤ) :
    half_hline c buf w h lvl "left" e =
      draw_hline c buf w 0 (e + Int.fdiv w 2) (Int.fdiv h 2) lvl := by
  simp [half_hline]

theorem half_hline_right (c : Ctx) (buf : Buf) (w h : ℤ) (lvl : ℕ) (e : ℤ) :
    half_hline c buf w h lvl "right" e =
      draw_hline c buf w (Int.fdiv w 2 - e) w (Int.fdiv h 2) lvl := by
  simp [half_hline]

theorem add_hholes_eval (c : Ctx) (buf : Buf) (w h : ℤ) (level num : ℕ) (i : ℤ) :
    add_hholes c buf w h level num i =
      if ∃ yy ∈ intRange (Int.fdiv h 2 - Int.fdiv (thickness c level true) 2)
          (Int.fdiv h 2 - Int.fdiv (thickness c level true) 2 + thickness c level true),
          ∃ hole ∈ get_holes w (Int.fdiv w hole_factor) num, ∃ xx ∈ hole, i = yy * w + xx
      then 0 else buf i := by
  unfold add_hholes
  exact foldl_const_set 0
    (fun yy j => ∃ hole ∈ get_holes w (Int.fdiv w hole_factor) num,
      ∃ xx ∈ hole, j = yy * w + xx)
    (fun b yy => (get_holes w (Int.fdiv w hole_factor) num).foldl
      (fun b2 hole => hole.foldl (fun b3 x => wr b3 (yy * w + x) 0) b2) b)
    (fun yy b j => foldl_const_set 0 (fun hole j2 => ∃ xx ∈ hole, j2 = yy * w + xx)
      (fun b2 hole => hole.foldl (fun b3 x => wr b3 (yy * w + x) 0) b2)
      (fun hole b2 j2 => foldl_wr_const 0 (fun x => yy * w + x) hole b2 j2)
      (get_holes w (Int.fdiv w hole_factor) num) b j)
    _ buf i

/-- After `hline` then `add_hholes` (level 1), the pixel at column `x` of the
central band row `h//2` is 0 exactly on the hole columns and 255 elsewhere. -/
theorem hholes_row_pixel (c : Ctx) (w h : ℤ) (n : ℕ) (x : ℤ)
    (hw : 0 < w) (hx : 0 ≤ x) (hxw : x < w)
    (hsz : 1 ≤ thickness c 1 true)
    (hsub : ∀ hole ∈ get_holes w (Int.fdiv w 8) n, ∀ xx ∈ hole, 0 ≤ xx ∧ xx < w) :
    hholes c zeroBuf w h 1 n (Int.fdiv h 2 * w + x) =
      if ∃ hole ∈ get_holes w (Int.fdiv w 8) n, x ∈ hole then 0 else 255 := by
  have htf : thickness c 1 false = thickness c 1 true := rfl
  have hd2 := fdiv_decomp (thickness c 1 true) 2 (by norm_num)
  have hdw := fdiv_decomp w 2 (by norm_num)
  have hfactor : Int.fdiv w hole_factor = Int.fdiv w 8 := rfl
  unfold hholes hline
  rw [half_hline_left, half_hline_right, add_hholes_eval, hfactor]
  have hband : Int.fdiv h 2 ∈ intRange
      (Int.fdiv h 2 - Int.fdiv (thickness c 1 true) 2)
      (Int.fdiv h 2 - Int.fdiv (thickness c 1 true) 2 + thickness c 1 true) := by
    rw [mem_intRange]
    omega
  have hcond : (∃ yy ∈ intRange (Int.fdiv h 2 - Int.fdiv (thickness c 1 true) 2)
      (Int.fdiv h 2 - Int.fdiv (thickness c 1 true) 2 + thickness c 1 true),
      ∃ hole ∈ get_holes w (Int.fdiv w 8) n, ∃ xx ∈ hole,
        Int.fdiv h 2 * w + x = yy * w + xx) ↔
      (∃ hole ∈ get_holes w (Int.fdiv w 8) n, x ∈ hole) := by
    constructor
    · rintro ⟨yy, hyy, hole, hhole, xx, hxx, heq⟩
      obtain ⟨hxx0, hxxw⟩ := hsub hole hhole xx hxx
      have := offset_unique hw hx hxw hxx0 hxxw heq
      rw [this.2]
      exact ⟨hole, hhole, hxx⟩
    · rintro ⟨hole, hhole, hxx⟩
      exact ⟨Int.fdiv h 2, hband, hole, hhole, x, hxx, rfl⟩
  by_cases hA : ∃ hole ∈ get_holes w (Int.fdiv w 8) n, x ∈ hole
  · rw [if_pos (hcond.mpr hA), if_pos hA]
  · rw [if_neg (fun hc => hA (hcond.mp hc)), if_neg hA]
    rw [draw_hline_pixel c _ w (Int.fdiv w 2 - 0) w (Int.fdiv h 2) 1 x (Int.fdiv h 2)
      hw (by omega) (by omega) hx hxw]
    rw [htf]
    by_cases hxr : Int.fdiv w 2 - 0 ≤ x
    · rw [if_pos ⟨⟨hxr, hxw⟩, by omega⟩]
    · rw [if_neg (by
        intro hcc
        exact hxr hcc.1.1)]
      rw [draw_hline_pixel c _ w 0 (0 + Int.fdiv w 2) (Int.fdiv h 2) 1 x (Int.fdiv h 2)
        hw (by omega) (by omega) hx hxw]
      rw [htf]
      rw [if_pos ⟨⟨hx, by omega⟩, by omega⟩]

end BoxDrawing

namespace BoxDrawing

theorem get_holes_one (sz hsz : ℤ) :
    get_holes sz hsz 1 =
      [intRange (Int.fdiv sz 2 - Int.fdiv hsz 2)
        (Int.fdiv sz 2 - Int.fdiv hsz 2 + hsz)] := rfl

theorem get_holes_two (sz hsz : ℤ) :
    get_holes sz hsz 2 =
      [intRange (Int.fdiv (sz - 2 * hsz) 3 + Int.fdiv hsz 2 - Int.fdiv hsz 2)
        (Int.fdiv (sz - 2 * hsz) 3 + Int.fdiv hsz 2 - Int.fdiv hsz 2 + hsz),
       intRange (2 * Int.fdiv (sz - 2 * hsz) 3 + Int.fdiv hsz 2 + hsz - Int.fdiv hsz 2)
        (2 * Int.fdiv (sz - 2 * hsz) 3 + Int.fdiv hsz 2 + hsz - Int.fdiv hsz 2 + hsz)] := rfl

theorem get_holes_three (sz hsz : ℤ) :
    get_holes sz hsz 3 =
      [intRange (Int.fdiv (sz - 3 * hsz) 4 + Int.fdiv hsz 2 - Int.fdiv hsz 2)
        (Int.fdiv (sz - 3 * hsz) 4 + Int.fdiv hsz 2 - Int.fdiv hsz 2 + hsz),
       intRange (2 * Int.fdiv (sz - 3 * hsz) 4 + Int.fdiv hsz 2 + hsz - Int.fdiv hsz 2)
        (2 * Int.fdiv (sz - 3 * hsz) 4 + Int.fdiv hsz 2 + hsz - Int.fdiv hsz 2 + hsz),
       intRange (3 * Int.fdiv (sz - 3 * hsz) 4 + 2 * hsz + Int.fdiv hsz 2 - Int.fdiv hsz 2)
        (3 * Int.fdiv (sz - 3 * hsz) 4 + 2 * hsz + Int.fdiv hsz 2 - Int.fdiv hsz 2 + hsz)] := rfl

end BoxDrawing

/-- C4 counterexample: at width 8, height 8, n = 1 (an even width and an odd
number of holes), after `hline` then `add_hholes` the zeroed column of the
central band row is column 4 alone, which is not symmetric about the
horizontal center of the 8-pixel row (its mirror, column 3, is filled). -/
theorem C4_counterexample :
    ¬ (∀ x : ℕ, x < 8 →
      (BoxDrawing.hholes ⟨BoxDrawing.defaultScale, 96⟩ BoxDrawing.zeroBuf 8 8 1 1
          ((4:ℤ) * 8 + (x:ℤ)) = 0 ↔
        BoxDrawing.hholes ⟨BoxDrawing.defaultScale, 96⟩ BoxDrawing.zeroBuf 8 8 1 1
          ((4:ℤ) * 8 + ((7:ℤ) - (x:ℤ))) = 0)) := by
  decide

/-- C4 (amended): for every even width ≥ 8, every even height, every context
with positive level-1 thickness and every n in {1,2,3}, `hline` followed by
`add_hholes` with `num = n` leaves exactly `n` pairwise-disjoint maximal runs
of zeroed columns inside the filled horizontal band, each run exactly
`width // 8` (floored) columns wide; the zeroed-column set is symmetric about
the horizontal center iff `width // 8` is even (for `n = 1`), resp. iff
`width - 3*(width // 8)` is divisible by 4 (for `n = 3`). -/
theorem C4_amended_holes (c : BoxDrawing.Ctx) (w h : ℤ) (n : ℕ)
    (hcond : (n = 1 ∨ n = 2 ∨ n = 3) ∧ Even w ∧ Even h ∧ 8 ≤ w ∧
      1 ≤ BoxDrawing.thickness c 1 true) :
    ∃ starts : List ℤ,
      starts.length = n ∧
      starts.Chain' (fun a b => a + Int.fdiv w 8 < b) ∧
      (∀ a ∈ starts, 1 ≤ a ∧ a + Int.fdiv w 8 ≤ w - 1 ∧
        (∀ x, a ≤ x → x < a + Int.fdiv w 8 →
          BoxDrawing.hholes c BoxDrawing.zeroBuf w h 1 n (Int.fdiv h 2 * w + x) = 0) ∧
        BoxDrawing.hholes c BoxDrawing.zeroBuf w h 1 n
          (Int.fdiv h 2 * w + (a - 1)) = 255 ∧
        BoxDrawing.hholes c BoxDrawing.zeroBuf w h 1 n
          (Int.fdiv h 2 * w + (a + Int.fdiv w 8)) = 255) ∧
      (∀ x, 0 ≤ x → x < w →
        BoxDrawing.hholes c BoxDrawing.zeroBuf w h 1 n (Int.fdiv h 2 * w + x) = 0 →
        ∃ a ∈ starts, a ≤ x ∧ x < a + Int.fdiv w 8) ∧
      (n = 1 →
        ((∀ x, 0 ≤ x → x < w →
          (BoxDrawing.hholes c BoxDrawing.zeroBuf w h 1 n (Int.fdiv h 2 * w + x) = 0 ↔
            BoxDrawing.hholes c BoxDrawing.zeroBuf w h 1 n
              (Int.fdiv h 2 * w + (w - 1 - x)) = 0)) ↔ 2 ∣ Int.fdiv w 8)) ∧
      (n = 3 →
        ((∀ x, 0 ≤ x → x < w →
          (BoxDrawing.hholes c BoxDrawing.zeroBuf w h 1 n (Int.fdiv h 2 * w + x) = 0 ↔
            BoxDrawing.hholes c BoxDrawing.zeroBuf w h 1 n
              (Int.fdiv h 2 * w + (w - 1 - x)) = 0)) ↔
          4 ∣ (w - 3 * Int.fdiv w 8))) := by
  obtain ⟨hn, hwe, hhe, hw8, hsz⟩ := hcond
  have hw : 0 < w := by omega
  obtain ⟨hf8a, hf8b⟩ := BoxDrawing.fdiv_decomp w 8 (by norm_num)
  obtain ⟨hw2a, hw2b⟩ := BoxDrawing.fdiv_decomp w 2 (by norm_num)
  obtain ⟨hh2a, hh2b⟩ := BoxDrawing.fdiv_decomp (Int.fdiv w 8) 2 (by norm_num)
  obtain ⟨m, hm⟩ := hwe
  have hs1 : 1 ≤ Int.fdiv w 8 := by omega
  rcases hn with rfl | rfl | rfl
  · -- n = 1
    have hsub : ∀ hole ∈ BoxDrawing.get_holes w (Int.fdiv w 8) 1,
        ∀ xx ∈ hole, 0 ≤ xx ∧ xx < w := by
      rw [BoxDrawing.get_holes_one]
      intro hole hmem xx hxx
      simp only [List.mem_singleton] at hmem
      subst hmem
      rw [BoxDrawing.mem_intRange] at hxx
      omega
    have hpix : ∀ x, 0 ≤ x → x < w →
        BoxDrawing.hholes c BoxDrawing.zeroBuf w h 1 1 (Int.fdiv h 2 * w + x) =
          if ∃ hole ∈ BoxDrawing.get_holes w (Int.fdiv w 8) 1, x ∈ hole
          then 0 else 255 :=
      fun x hx hxw => BoxDrawing.hholes_row_pixel c w h 1 x hw hx hxw hsz hsub
    have hZ : ∀ x, 0 ≤ x → x < w →
        (BoxDrawing.hholes c BoxDrawing.zeroBuf w h 1 1 (Int.fdiv h 2 * w + x) = 0 ↔
          (Int.fdiv w 2 - Int.fdiv (Int.fdiv w 8) 2 ≤ x ∧
            x < Int.fdiv w 2 - Int.fdiv (Int.fdiv w 8) 2 + Int.fdiv w 8)) := by
      intro x hx hxw
      rw [hpix x hx hxw]
      by_cases hc : ∃ hole ∈ BoxDrawing.get_holes w (Int.fdiv w 8) 1, x ∈ hole
      · rw [if_pos hc]
        simp only [BoxDrawing.get_holes_one, List.mem_singleton, exists_eq_left,
          BoxDrawing.mem_intRange] at hc
        exact ⟨fun _ => hc, fun _ => rfl⟩
      · rw [if_neg hc]
        simp only [BoxDrawing.get_holes_one, List.mem_singleton, exists_eq_left,
          BoxDrawing.mem_intRange] at hc
        exact ⟨fun h255 => absurd h255 (by decide), fun hb => absurd hb hc⟩
    refine ⟨[Int.fdiv w 2 - Int.fdiv (Int.fdiv w 8) 2], rfl, ?_, ?_, ?_, ?_, ?_⟩
    · exact List.chain'_singleton _
    · intro a ha
      simp only [List.mem_singleton] at ha
      subst ha
      refine ⟨by omega, by omega, ?_, ?_, ?_⟩
      · intro x h1 h2
        exact (hZ x (by omega) (by omega)).mpr ⟨h1, h2⟩
      · rw [hpix _ (by omega) (by omega), if_neg]
        simp only [BoxDrawing.get_holes_one, List.mem_singleton, exists_eq_left,
          BoxDrawing.mem_intRange]
        omega
      · rw [hpix _ (by omega) (by omega), if_neg]
        simp only [BoxDrawing.get_holes_one, List.mem_singleton, exists_eq_left,
          BoxDrawing.mem_intRange]
        omega
    · intro x hx hxw h0
      exact ⟨Int.fdiv w 2 - Int.fdiv (Int.fdiv w 8) 2, List.mem_singleton_self _,
        (hZ x hx hxw).mp h0⟩
    · intro _
      constructor
      · intro hsym
        have hb1 : 0 ≤ Int.fdiv w 2 - Int.fdiv (Int.fdiv w 8) 2 + Int.fdiv w 8 - 1 := by
          omega
        have hb2 : Int.fdiv w 2 - Int.fdiv (Int.fdiv w 8) 2 + Int.fdiv w 8 - 1 < w := by
          omega
        have hx1 := hsym _ hb1 hb2
        have hZa := (hZ _ hb1 hb2).mpr ⟨by omega, by omega⟩
        have hZb := (hZ _ (by omega) (by omega)).mp (hx1.mp hZa)
        omega
      · intro hdvd x hx hxw
        rw [hZ x hx hxw, hZ (w - 1 - x) (by omega) (by omega)]
        omega
    · intro h13
      exact absurd h13 (by decide)
  · -- n = 2
    obtain ⟨h3a, h3b⟩ := BoxDrawing.fdiv_decomp (w - 2 * Int.fdiv w 8) 3 (by norm_num)
    have hsub : ∀ hole ∈ BoxDrawing.get_holes w (Int.fdiv w 8) 2,
        ∀ xx ∈ hole, 0 ≤ xx ∧ xx < w := by
      rw [BoxDrawing.get_holes_two]
      intro hole hmem xx hxx
      simp only [List.mem_cons, List.mem_singleton, List.not_mem_nil, or_false] at hmem
      rcases hmem with rfl | rfl <;>
        (rw [BoxDrawing.mem_intRange] at hxx; omega)
    have hpix : ∀ x, 0 ≤ x → x < w →
        BoxDrawing.hholes c BoxDrawing.zeroBuf w h 1 2 (Int.fdiv h 2 * w + x) =
          if ∃ hole ∈ BoxDrawing.get_holes w (Int.fdiv w 8) 2, x ∈ hole
          then 0 else 255 :=
      fun x hx hxw => BoxDrawing.hholes_row_pixel c w h 2 x hw hx hxw hsz hsub
    have hZ : ∀ x, 0 ≤ x → x < w →
        (BoxDrawing.hholes c BoxDrawing.zeroBuf w h 1 2 (Int.fdiv h 2 * w + x) = 0 ↔
          ((Int.fdiv (w - 2 * Int.fdiv w 8) 3 ≤ x ∧
              x < Int.fdiv (w - 2 * Int.fdiv w 8) 3 + Int.fdiv w 8) ∨
            (2 * Int.fdiv (w - 2 * Int.fdiv w 8) 3 + Int.fdiv w 8 ≤ x ∧
              x < 2 * Int.fdiv (w - 2 * Int.fdiv w 8) 3 + 2 * Int.fdiv w 8))) := by
      intro x hx hxw
      rw [hpix x hx hxw]
      by_cases hc : ∃ hole ∈ BoxDrawing.get_holes w (Int.fdiv w 8) 2, x ∈ hole
      · rw [if_pos hc]
        simp only [BoxDrawing.get_holes_two, List.mem_cons, List.mem_singleton,
          List.not_mem_nil, or_false, exists_eq_or_imp, exists_eq_left,
          BoxDrawing.mem_intRange] at hc
        refine ⟨fun _ => ?_, fun _ => rfl⟩
        omega
      · rw [if_neg hc]
        simp only [BoxDrawing.get_holes_two, List.mem_cons, List.mem_singleton,
          List.not_mem_nil, or_false, exists_eq_or_imp, exists_eq_left,
          BoxDrawing.mem_intRange] at hc
        refine ⟨fun h255 => absurd h255 (by decide), fun hb => ?_⟩
        exact absurd (by omega :
          (Int.fdiv (w - 2 * Int.fdiv w 8) 3 + Int.fdiv (Int.fdiv w 8) 2 -
              Int.fdiv (Int.fdiv w 8) 2 ≤ x ∧
            x < Int.fdiv (w - 2 * Int.fdiv w 8) 3 + Int.fdiv (Int.fdiv w 8) 2 -
              Int.fdiv (Int.fdiv w 8) 2 + Int.fdiv w 8) ∨
          (2 * Int.fdiv (w - 2 * Int.fdiv w 8) 3 + Int.fdiv (Int.fdiv w 8) 2 +
              Int.fdiv w 8 - Int.fdiv (Int.fdiv w 8) 2 ≤ x ∧
            x < 2 * Int.fdiv (w - 2 * Int.fdiv w 8) 3 + Int.fdiv (Int.fdiv w 8) 2 +
              Int.fdiv w 8 - Int.fdiv (Int.fdiv w 8) 2 + Int.fdiv w 8)) hc
    refine ⟨[Int.fdiv (w - 2 * Int.fdiv w 8) 3,
      2 * Int.fdiv (w - 2 * Int.fdiv w 8) 3 + Int.fdiv w 8], rfl, ?_, ?_, ?_, ?_, ?_⟩
    · refine List.chain'_cons.mpr ⟨by omega, List.chain'_singleton _⟩
    · intro a ha
      simp only [List.mem_cons, List.mem_singleton, List.not_mem_nil, or_false] at ha
      rcases ha with rfl | rfl
      · refine ⟨by omega, by omega, ?_, ?_, ?_⟩
        · intro x h1 h2
          exact (hZ x (by omega) (by omega)).mpr (Or.inl ⟨h1, h2⟩)
        · rw [hpix _ (by omega) (by omega), if_neg]
          simp only [BoxDrawing.get_holes_two, List.mem_cons, List.mem_singleton,
            List.not_mem_nil, or_false, exists_eq_or_imp, exists_eq_left,
            BoxDrawing.mem_intRange]
          omega
        · rw [hpix _ (by omega) (by omega), if_neg]
          simp only [BoxDrawing.get_holes_two, List.mem_cons, List.mem_singleton,
            List.not_mem_nil, or_false, exists_eq_or_imp, exists_eq_left,
            BoxDrawing.mem_intRange]
          omega
      · refine ⟨by omega, by omega, ?_, ?_, ?_⟩
        · intro x h1 h2
          exact (hZ x (by omega) (by omega)).mpr (Or.inr ⟨by omega, by omega⟩)
        · rw [hpix _ (by omega) (by omega), if_neg]
          simp only [BoxDrawing.get_holes_two, List.mem_cons, List.mem_singleton,
            List.not_mem_nil, or_false, exists_eq_or_imp, exists_eq_left,
            BoxDrawing.mem_intRange]
          omega
        · rw [hpix _ (by omega) (by omega), if_neg]
          simp only [BoxDrawing.get_holes_two, List.mem_cons, List.mem_singleton,
            List.not_mem_nil, or_false, exists_eq_or_imp, exists_eq_left,
            BoxDrawing.mem_intRange]
          omega
    · intro x hx hxw h0
      rcases (hZ x hx hxw).mp h0 with hcase | hcase
      · exact ⟨Int.fdiv (w - 2 * Int.fdiv w 8) 3, by simp, hcase.1, hcase.2⟩
      · refine ⟨2 * Int.fdiv (w - 2 * Int.fdiv w 8) 3 + Int.fdiv w 8, by simp, ?_, ?_⟩
        · omega
        · omega
    · intro h21
      exact absurd h21 (by decide)
    · intro h23
      exact absurd h23 (by decide)
  · -- n = 3
    obtain ⟨h4a, h4b⟩ := BoxDrawing.fdiv_decomp (w - 3 * Int.fdiv w 8) 4 (by norm_num)
    have hsub : ∀ hole ∈ BoxDrawing.get_holes w (Int.fdiv w 8) 3,
        ∀ xx ∈ hole, 0 ≤ xx ∧ xx < w := by
      rw [BoxDrawing.get_holes_three]
      intro hole hmem xx hxx
      simp only [List.mem_cons, List.mem_singleton, List.not_mem_nil, or_false] at hmem
      rcases hmem with rfl | rfl | rfl <;>
        (rw [BoxDrawing.mem_intRange] at hxx; omega)
    have hpix : ∀ x, 0 ≤ x → x < w →
        BoxDrawing.hholes c BoxDrawing.zeroBuf w h 1 3 (Int.fdiv h 2 * w + x) =
          if ∃ hole ∈ BoxDrawing.get_holes w (Int.fdiv w 8) 3, x ∈ hole
          then 0 else 255 :=
      fun x hx hxw => BoxDrawing.hholes_row_pixel c w h 3 x hw hx hxw hsz hsub
    have hZ : ∀ x, 0 ≤ x → x < w →
        (BoxDrawing.hholes c BoxDrawing.zeroBuf w h 1 3 (Int.fdiv h 2 * w + x) = 0 ↔
          ((Int.fdiv (w - 3 * Int.fdiv w 8) 4 ≤ x ∧
              x < Int.fdiv (w - 3 * Int.fdiv w 8) 4 + Int.fdiv w 8) ∨
            (2 * Int.fdiv (w - 3 * Int.fdiv w 8) 4 + Int.fdiv w 8 ≤ x ∧
              x < 2 * Int.fdiv (w - 3 * Int.fdiv w 8) 4 + 2 * Int.fdiv w 8) ∨
            (3 * Int.fdiv (w - 3 * Int.fdiv w 8) 4 + 2 * Int.fdiv w 8 ≤ x ∧
              x < 3 * Int.fdiv (w - 3 * Int.fdiv w 8) 4 + 3 * Int.fdiv w 8))) := by
      intro x hx hxw
      rw [hpix x hx hxw]
      by_cases hc : ∃ hole ∈ BoxDrawing.get_holes w (Int.fdiv w 8) 3, x ∈ hole
      · rw [if_pos hc]
        simp only [BoxDrawing.get_holes_three, List.mem_cons, List.mem_singleton,
          List.not_mem_nil, or_false, exists_eq_or_imp, exists_eq_left,
          BoxDrawing.mem_intRange] at hc
        refine ⟨fun _ => ?_, fun _ => rfl⟩
        omega
      · rw [if_neg hc]
        simp only [BoxDrawing.get_holes_three, List.mem_cons, List.mem_singleton,
          List.not_mem_nil, or_false, exists_eq_or_imp, exists_eq_left,
          BoxDrawing.mem_intRange] at hc
        refine ⟨fun h255 => absurd h255 (by decide), fun hb => absurd (by omega) hc⟩
    refine ⟨[Int.fdiv (w - 3 * Int.fdiv w 8) 4,
      2 * Int.fdiv (w - 3 * Int.fdiv w 8) 4 + Int.fdiv w 8,
      3 * Int.fdiv (w - 3 * Int.fdiv w 8) 4 + 2 * Int.fdiv w 8], rfl, ?_, ?_, ?_, ?_, ?_⟩
    · refine List.chain'_cons.mpr ⟨by omega, List.chain'_cons.mpr ⟨by omega,
        List.chain'_singleton _⟩⟩
    · intro a ha
      simp only [List.mem_cons, List.mem_singleton, List.not_mem_nil, or_false] at ha
      rcases ha with rfl | rfl | rfl
      · refine ⟨by omega, by omega, ?_, ?_, ?_⟩
        · intro x h1 h2
          exact (hZ x (by omega) (by omega)).mpr (Or.inl ⟨h1, h2⟩)
        · rw [hpix _ (by omega) (by omega), if_neg]
          simp only [BoxDrawing.get_holes_three, List.mem_cons, List.mem_singleton,
            List.not_mem_nil, or_false, exists_eq_or_imp, exists_eq_left,
            BoxDrawing.mem_intRange]
          omega
        · rw [hpix _ (by omega) (by omega), if_neg]
          simp only [BoxDrawing.get_holes_three, List.mem_cons, List.mem_singleton,
            List.not_mem_nil, or_false, exists_eq_or_imp, exists_eq_left,
            BoxDrawing.mem_intRange]
          omega
      · refine ⟨by omega, by omega, ?_, ?_, ?_⟩
        · intro x h1 h2
          exact (hZ x (by omega) (by omega)).mpr (Or.inr (Or.inl ⟨by omega, by omega⟩))
        · rw [hpix _ (by omega) (by omega), if_neg]
          simp only [BoxDrawing.get_holes_three, List.mem_cons, List.mem_singleton,
            List.not_mem_nil, or_false, exists_eq_or_imp, exists_eq_left,
            BoxDrawing.mem_intRange]
          omega
        · rw [hpix _ (by omega) (by omega), if_neg]
          simp only [BoxDrawing.get_holes_three, List.mem_cons, List.mem_singleton,
            List.not_mem_nil, or_false, exists_eq_or_imp, exists_eq_left,
            BoxDrawing.mem_intRange]
          omega
      · refine ⟨by omega, by omega, ?_, ?_, ?_⟩
        · intro x h1 h2
          exact (hZ x (by omega) (by omega)).mpr (Or.inr (Or.inr ⟨by omega, by omega⟩))
        · rw [hpix _ (by omega) (by omega), if_neg]
          simp only [BoxDrawing.get_holes_three, List.mem_cons, List.mem_singleton,
            List.not_mem_nil, or_false, exists_eq_or_imp, exists_eq_left,
            BoxDrawing.mem_intRange]
          omega
        · rw [hpix _ (by omega) (by omega), if_neg]
          simp only [BoxDrawing.get_holes_three, List.mem_cons, List.mem_singleton,
            List.not_mem_nil, or_false, exists_eq_or_imp, exists_eq_left,
            BoxDrawing.mem_intRange]
          omega
    · intro x hx hxw h0
      rcases (hZ x hx hxw).mp h0 with hcase | hcase | hcase
      · exact ⟨Int.fdiv (w - 3 * Int.fdiv w 8) 4, by simp, hcase.1, hcase.2⟩
      · refine ⟨2 * Int.fdiv (w - 3 * Int.fdiv w 8) 4 + Int.fdiv w 8, by simp, ?_, ?_⟩
        · omega
        · omega
      · refine ⟨3 * Int.fdiv (w - 3 * Int.fdiv w 8) 4 + 2 * Int.fdiv w 8, by simp, ?_, ?_⟩
        · omega
        · omega
    · intro h31
      exact absurd h31 (by decide)
    · intro _
      constructor
      · intro hsym
        have hb1 : 0 ≤ Int.fdiv (w - 3 * Int.fdiv w 8) 4 := by omega
        have hb2 : Int.fdiv (w - 3 * Int.fdiv w 8) 4 < w := by omega
        have hx1 := hsym _ hb1 hb2
        have hZa := (hZ _ hb1 hb2).mpr (Or.inl ⟨by omega, by omega⟩)
        have hZb := (hZ _ (by omega) (by omega)).mp (hx1.mp hZa)
        omega
      · intro hdvd x hx hxw
        rw [hZ x hx hxw, hZ (w - 1 - x) (by omega) (by omega)]
        omega

theorem C4_amended_holes_witness :
    (((1:ℕ) = 1 ∨ (1:ℕ) = 2 ∨ (1:ℕ) = 3) ∧ Even (16:ℤ) ∧ Even (16:ℤ) ∧ (8:ℤ) ≤ 16 ∧
      1 ≤ BoxDrawing.thickness ⟨BoxDrawing.defaultScale, 96⟩ 1 true) ∧
    (∃ starts : List ℤ,
      starts.length = 1 ∧
      starts.Chain' (fun a b => a + Int.fdiv 16 8 < b) ∧
      (∀ a ∈ starts, 1 ≤ a ∧ a + Int.fdiv 16 8 ≤ 16 - 1 ∧
        (∀ x, a ≤ x → x < a + Int.fdiv 16 8 →
          BoxDrawing.hholes ⟨BoxDrawing.defaultScale, 96⟩ BoxDrawing.zeroBuf 16 16 1 1
            (Int.fdiv 16 2 * 16 + x) = 0) ∧
        BoxDrawing.hholes ⟨BoxDrawing.defaultScale, 96⟩ BoxDrawing.zeroBuf 16 16 1 1
          (Int.fdiv 16 2 * 16 + (a - 1)) = 255 ∧
        BoxDrawing.hholes ⟨BoxDrawing.defaultScale, 96⟩ BoxDrawing.zeroBuf 16 16 1 1
          (Int.fdiv 16 2 * 16 + (a + Int.fdiv 16 8)) = 255) ∧
      (∀ x, 0 ≤ x → x < 16 →
        BoxDrawing.hholes ⟨BoxDrawing.defaultScale, 96⟩ BoxDrawing.zeroBuf 16 16 1 1
          (Int.fdiv 16 2 * 16 + x) = 0 →
        ∃ a ∈ starts, a ≤ x ∧ x < a + Int.fdiv 16 8) ∧
      ((1:ℕ) = 1 →
        ((∀ x, 0 ≤ x → x < 16 →
          (BoxDrawing.hholes ⟨BoxDrawing.defaultScale, 96⟩ BoxDrawing.zeroBuf 16 16 1 1
              (Int.fdiv 16 2 * 16 + x) = 0 ↔
            BoxDrawing.hholes ⟨BoxDrawing.defaultScale, 96⟩ BoxDrawing.zeroBuf 16 16 1 1
              (Int.fdiv 16 2 * 16 + (16 - 1 - x)) = 0)) ↔ 2 ∣ Int.fdiv 16 8)) ∧
      ((1:ℕ) = 3 →
        ((∀ x, 0 ≤ x → x < 16 →
          (BoxDrawing.hholes ⟨BoxDrawing.defaultScale, 96⟩ BoxDrawing.zeroBuf 16 16 1 1
              (Int.fdiv 16 2 * 16 + x) = 0 ↔
            BoxDrawing.hholes ⟨BoxDrawing.defaultScale, 96⟩ BoxDrawing.zeroBuf 16 16 1 1
              (Int.fdiv 16 2 * 16 + (16 - 1 - x)) = 0)) ↔
          4 ∣ (16 - 3 * Int.fdiv 16 8)))) :=
  ⟨⟨Or.inl rfl, ⟨8, by decide⟩, ⟨8, by decide⟩, by decide, by decide⟩,
    C4_amended_holes ⟨BoxDrawing.defaultScale, 96⟩ 16 16 1
      ⟨Or.inl rfl, ⟨8, by decide⟩, ⟨8, by decide⟩, by decide, by decide⟩⟩
